import Mathlib

/-!
Verification development for `libsimplenet`: shallow embeddings of the
runtime components (queued writer, event loops, descriptor ownership,
endpoint parsing) together with theorems about their behaviour.

Errno values are the Linux `asm-generic` numbers used by the sources via
`make_error_from_errno`; `result<T>` is embedded as `Except Nat T`.
-/

namespace LibSimpleNet

deriving instance DecidableEq for Except

def EBADF : Nat := 9
def EWOULDBLOCK : Nat := 11
def EBUSY : Nat := 16
def EINVAL : Nat := 22
def EPIPE : Nat := 32
def EDEADLK : Nat := 35
def ETIMEDOUT : Nat := 110
def ECANCELED : Nat := 125

/-! ## Queued writer (`src/unnamed/part_007`, `write_queue.hpp`)

Buffers are `std::vector<std::byte>`; we embed a byte as a `Nat` and a
buffer as a `List Nat`.  The parts of `queued_writer` that the stream and
the scheduler do not see (the queue, cursor, byte count, watermarks and
the backpressure flag) form the state. -/

/-- `simplenet::runtime::watermarks` (write_queue.hpp): low/high queue
thresholds. -/
structure watermarks where
  low : Nat
  high : Nat
deriving DecidableEq, Repr

/-- `simplenet::runtime::backpressure_state` (write_queue.hpp). -/
inductive backpressure_state
  | normal
  | high_watermark
deriving DecidableEq, Repr

/-- State of a `queued_writer`: the owned stream is reduced to its validity
bit (`stream_.valid()`), the rest are the data members of the class. -/
structure WriterState where
  streamValid : Bool
  marks : watermarks
  queue : List (List Nat)
  front_offset : Nat
  queued_bytes : Nat
  high_watermark_active : Bool
deriving DecidableEq, Repr

/-- `queued_writer::queued_writer` (part_007 lines 15-24): adopts the
stream and normalises the watermarks — a zero low watermark becomes 1 and
a high watermark below the low one is raised to the low one. -/
def queued_writer.init (streamValid : Bool) (marks : watermarks) : WriterState :=
  let low := if marks.low = 0 then 1 else marks.low
  let high := if marks.high < low then low else marks.high
  { streamValid := streamValid
    marks := ⟨low, high⟩
    queue := []
    front_offset := 0
    queued_bytes := 0
    high_watermark_active := false }

/-- `queued_writer::enqueue_owned` (part_007 lines 37-61): reject on an
invalid stream, report the current state on an empty buffer, refuse with
`EWOULDBLOCK` while the high watermark holds and the queue has not drained
below `low`, otherwise append and possibly enter the high-watermark
state.  Returns the `result<backpressure_state>` and the updated state. -/
def enqueue_owned (s : WriterState) (bytes : List Nat) :
    Except Nat backpressure_state × WriterState :=
  if s.streamValid = false then (.error EBADF, s)
  else if bytes = [] then
    (if s.high_watermark_active then .ok .high_watermark else .ok .normal, s)
  else if s.high_watermark_active = true ∧ s.marks.low ≤ s.queued_bytes then
    (.error EWOULDBLOCK, s)
  else
    let queued := s.queued_bytes + bytes.length
    let active := if s.marks.high ≤ queued then true else s.high_watermark_active
    (if active then .ok .high_watermark else .ok .normal,
      { s with queue := s.queue ++ [bytes]
               queued_bytes := queued
               high_watermark_active := active })

/-- `queued_writer::update_backpressure_after_drain` (part_007 lines
139-143): leave the high-watermark state once the queue has drained to the
low watermark. -/
def update_backpressure_after_drain (s : WriterState) : WriterState :=
  if s.high_watermark_active = true ∧ s.queued_bytes ≤ s.marks.low then
    { s with high_watermark_active := false }
  else s

/-- One successful iteration of the drain loop in `queued_writer::flush`
(part_007 lines 63-110): `n` bytes of the front buffer past `front_offset_`
were written (`flush` treats a zero-byte write as `EPIPE`, so `0 < n`);
advance the cursor and the byte count, pop the front buffer once it is
exhausted, then run `update_backpressure_after_drain`. -/
def flush_write_step (s : WriterState) (n : Nat) : WriterState :=
  match s.queue with
  | [] => s
  | front :: rest =>
    let offset := s.front_offset + n
    let queued := s.queued_bytes - n
    let s1 :=
      if offset = front.length then
        { s with queue := rest, front_offset := 0, queued_bytes := queued }
      else
        { s with front_offset := offset, queued_bytes := queued }
    update_backpressure_after_drain s1

/-- The state transitions a `queued_writer` can make: an `enqueue` /
`enqueue_owned` call with arbitrary bytes (both the error and the success
path, since `enqueue_owned` returns the unchanged state on error), or one
successful partial write inside `flush` (which the loop only attempts
while `queued_bytes_ > 0`, and which can deliver at most the remaining
bytes of the front buffer). -/
inductive WriterStep : WriterState → WriterState → Prop
  | enqueue (s : WriterState) (bytes : List Nat) :
      WriterStep s (enqueue_owned s bytes).2
  | drain (s : WriterState) (n : Nat) (h0 : 0 < s.queued_bytes) (hn : 0 < n)
      (hle : n ≤ (s.queue.headD []).length - s.front_offset) :
      WriterStep s (flush_write_step s n)

/-- States reachable from the constructor by enqueue and flush steps. -/
inductive WriterReachable : WriterState → Prop
  | init (v : Bool) (m : watermarks) : WriterReachable (queued_writer.init v m)
  | step {s s' : WriterState} :
      WriterReachable s → WriterStep s s' → WriterReachable s'

/-- The structural part of the `queued_writer` invariant: normalised
watermarks, the byte count agrees with the queue contents past the
cursor, the cursor stays inside the front buffer, queued buffers are
never empty. -/
def writer_inv0 (s : WriterState) : Prop :=
  1 ≤ s.marks.low ∧
  s.marks.low ≤ s.marks.high ∧
  s.queued_bytes =
    ((s.queue.headD []).length - s.front_offset) +
      (s.queue.tail.map List.length).sum ∧
  (s.queue ≠ [] → s.front_offset < (s.queue.headD []).length) ∧
  (s.queue = [] → s.front_offset = 0) ∧
  (∀ b ∈ s.queue, b ≠ [])

/-- The full `queued_writer` invariant: the structural part plus the
backpressure component — the high-watermark flag forces at least `low`
queued bytes. -/
def writer_inv (s : WriterState) : Prop :=
  writer_inv0 s ∧ (s.high_watermark_active = true → s.marks.low ≤ s.queued_bytes)

theorem writer_inv_init (v : Bool) (m : watermarks) :
    writer_inv (queued_writer.init v m) := by
  refine ⟨⟨?_, ?_, by simp [queued_writer.init], by simp [queued_writer.init],
    by simp [queued_writer.init], by simp [queued_writer.init]⟩,
    by simp [queued_writer.init]⟩
  · simp only [queued_writer.init]
    split_ifs <;> omega
  · simp only [queued_writer.init]
    split_ifs <;> omega

theorem update_backpressure_marks (s : WriterState) :
    (update_backpressure_after_drain s).marks = s.marks := by
  unfold update_backpressure_after_drain
  split <;> rfl

theorem enqueue_owned_marks (s : WriterState) (bytes : List Nat) :
    (enqueue_owned s bytes).2.marks = s.marks := by
  unfold enqueue_owned
  repeat' split
  all_goals rfl

theorem flush_write_step_marks (s : WriterState) (n : Nat) :
    (flush_write_step s n).marks = s.marks := by
  unfold flush_write_step
  cases hq : s.queue with
  | nil => rfl
  | cons front rest =>
    dsimp only
    rw [update_backpressure_marks]
    split <;> rfl

/-- The watermarks are set in the constructor and never modified by any
subsequent step. -/
theorem writer_marks_step {s s' : WriterState} (h : WriterStep s s') :
    s'.marks = s.marks := by
  cases h with
  | enqueue bytes => exact enqueue_owned_marks s bytes
  | drain n h0 hn hle => exact flush_write_step_marks s n

/-- `update_backpressure_after_drain` restores the full invariant from
the structural part alone: it either clears the flag or leaves more than
`low` bytes queued. -/
theorem writer_inv_update {s : WriterState} (h : writer_inv0 s) :
    writer_inv (update_backpressure_after_drain s) := by
  unfold update_backpressure_after_drain
  split
  · exact ⟨⟨h.1, h.2.1, h.2.2.1, h.2.2.2.1, h.2.2.2.2.1, h.2.2.2.2.2⟩, by simp⟩
  · rename_i hc
    refine ⟨h, fun hact => ?_⟩
    by_cases hle : s.queued_bytes ≤ s.marks.low
    · exact absurd ⟨hact, hle⟩ hc
    · omega

theorem writer_inv_enqueue {s : WriterState} (h : writer_inv s)
    (bytes : List Nat) : writer_inv (enqueue_owned s bytes).2 := by
  obtain ⟨⟨h1, h2, h3, h4, h5, h6⟩, h7⟩ := h
  unfold enqueue_owned
  split
  · exact ⟨⟨h1, h2, h3, h4, h5, h6⟩, h7⟩
  · split
    · exact ⟨⟨h1, h2, h3, h4, h5, h6⟩, h7⟩
    · split
      · exact ⟨⟨h1, h2, h3, h4, h5, h6⟩, h7⟩
      · rename_i hvalid hbytes hblock
        refine ⟨⟨h1, h2, ?_, ?_, by simp, ?_⟩, ?_⟩
        · dsimp only
          cases hq : s.queue with
          | nil =>
            rw [hq] at h3
            simp at h3
            simp [hq, h5 hq, h3]
          | cons front rest =>
            rw [hq] at h3
            have hfo : s.front_offset < front.length := by
              have := h4 (by simp [hq])
              simpa [hq] using this
            simp [hq] at h3 ⊢
            omega
        · dsimp only
          intro _
          cases hq : s.queue with
          | nil =>
            simp [hq, h5 hq]
            exact List.length_pos.mpr hbytes
          | cons front rest =>
            have := h4 (by simp [hq])
            simpa [hq] using this
        · dsimp only
          intro b hb
          rcases List.mem_append.mp hb with hb | hb
          · exact h6 b hb
          · simp at hb
            subst hb
            exact hbytes
        · dsimp only
          intro hact
          split at hact
          · rename_i hge
            omega
          · exact le_trans (h7 hact) (Nat.le_add_right _ _)

theorem writer_inv_drain {s : WriterState} (h : writer_inv s) (n : Nat)
    (h0 : 0 < s.queued_bytes) (hn : 0 < n)
    (hle : n ≤ (s.queue.headD []).length - s.front_offset) :
    writer_inv (flush_write_step s n) := by
  obtain ⟨⟨h1, h2, h3, h4, h5, h6⟩, h7⟩ := h
  unfold flush_write_step
  cases hq : s.queue with
  | nil => exact ⟨⟨h1, h2, h3, h4, h5, h6⟩, h7⟩
  | cons front rest =>
    have hfo : s.front_offset < front.length := by
      have := h4 (by simp [hq])
      simpa [hq] using this
    have hrem : n ≤ front.length - s.front_offset := by
      simpa [hq] using hle
    have hq3 : s.queued_bytes =
        (front.length - s.front_offset) + (rest.map List.length).sum := by
      simpa [hq] using h3
    have hall : ∀ b ∈ front :: rest, b ≠ [] := by
      intro b hb
      exact h6 b (hq ▸ hb)
    dsimp only
    apply writer_inv_update
    split
    · -- front buffer exhausted: pop it
      rename_i hfull
      have hqb : s.queued_bytes - n = (rest.map List.length).sum := by omega
      refine ⟨h1, h2, ?_, ?_, by simp, ?_⟩
      · dsimp only
        cases rest with
        | nil => simpa using hqb
        | cons b bs =>
          simp at hqb ⊢
          omega
      · dsimp only
        intro hne
        cases rest with
        | nil => simp at hne
        | cons b bs =>
          simp only [List.headD_cons]
          exact List.length_pos.mpr (hall b (by simp))
      · dsimp only
        intro b hb
        exact hall b (by simp [hb])
    · -- front buffer still has bytes past the new cursor
      rename_i hnotfull
      refine ⟨h1, h2, ?_, ?_, by simp [hq], ?_⟩
      · dsimp only
        simp [hq]
        omega
      · dsimp only
        intro _
        simp [hq]
        omega
      · dsimp only
        intro b hb
        exact hall b (hq ▸ hb)

/-- Every reachable `queued_writer` state satisfies the invariant. -/
theorem writer_inv_reachable {s : WriterState} (h : WriterReachable s) :
    writer_inv s := by
  induction h with
  | init v m => exact writer_inv_init v m
  | step _ hstep ih =>
    cases hstep with
    | enqueue bytes => exact writer_inv_enqueue ih bytes
    | drain n h0 hn hle => exact writer_inv_drain ih n h0 hn hle

/-- A sample run used to instantiate the writer theorems: construct with
watermarks (2, 3), enqueue three bytes (which trips the high watermark),
then drain two bytes (which clears it). -/
def writerDemo0 : WriterState := queued_writer.init true ⟨2, 3⟩

def writerDemo1 : WriterState := (enqueue_owned writerDemo0 [1, 2, 3]).2

def writerDemo2 : WriterState := flush_write_step writerDemo1 2

theorem writerDemo1_reachable : WriterReachable writerDemo1 :=
  (WriterReachable.init true ⟨2, 3⟩).step (WriterStep.enqueue writerDemo0 [1, 2, 3])

theorem writerDemo2_reachable : WriterReachable writerDemo2 :=
  writerDemo1_reachable.step
    (WriterStep.drain writerDemo1 2 (by decide) (by decide) (by decide))

/-- C3: in every state of a `queued_writer` reachable from construction by
enqueue and flush steps, `queued_bytes` equals the byte count of the front
buffer beyond `front_offset` plus the sizes of all subsequent buffers,
`front_offset` is strictly below the front buffer's size whenever the
queue is non-empty, and `high_watermark_active` is false whenever
`queued_bytes < low`. -/
theorem C3_queued_writer_invariants {s : WriterState} (h : WriterReachable s) :
    s.queued_bytes =
      ((s.queue.headD []).length - s.front_offset) +
        (s.queue.tail.map List.length).sum ∧
    (s.queue ≠ [] → s.front_offset < (s.queue.headD []).length) ∧
    (s.queued_bytes < s.marks.low → s.high_watermark_active = false) := by
  obtain ⟨⟨_, _, h3, h4, _, _⟩, h7⟩ := writer_inv_reachable h
  refine ⟨h3, h4, fun hlt => ?_⟩
  cases hact : s.high_watermark_active with
  | false => rfl
  | true => exact absurd (h7 hact) (by omega)

theorem C3_witness :
    writerDemo2.queued_bytes =
      ((writerDemo2.queue.headD []).length - writerDemo2.front_offset) +
        (writerDemo2.queue.tail.map List.length).sum ∧
    (writerDemo2.queue ≠ [] →
      writerDemo2.front_offset < (writerDemo2.queue.headD []).length) ∧
    (writerDemo2.queued_bytes < writerDemo2.marks.low →
      writerDemo2.high_watermark_active = false) :=
  C3_queued_writer_invariants writerDemo2_reachable

/-- C4 (amended): an `enqueue` of a non-empty buffer on a writer whose
stream is valid, made while `high_watermark_active` is true and
`queued_bytes ≥ low`, returns `EWOULDBLOCK` and leaves the state (queue,
byte count and backpressure flag) unchanged.  (The unamended claim also
covered empty buffers, which `enqueue_owned` accepts with `ok` before the
watermark check — see the counterexample.) -/
theorem C4_enqueue_refused_at_high_watermark (s : WriterState)
    (bytes : List Nat) (hvalid : s.streamValid = true) (hne : bytes ≠ [])
    (hact : s.high_watermark_active = true)
    (hq : s.marks.low ≤ s.queued_bytes) :
    enqueue_owned s bytes = (.error EWOULDBLOCK, s) := by
  unfold enqueue_owned
  simp [hvalid, hne, hact, hq]

theorem C4_witness :
    enqueue_owned writerDemo1 [9] = (.error EWOULDBLOCK, writerDemo1) :=
  C4_enqueue_refused_at_high_watermark writerDemo1 [9] (by decide) (by decide)
    (by decide) (by decide)

/-- C4 counterexample: in a reachable state with the high watermark active
and `queued_bytes ≥ low`, an enqueue of an *empty* buffer is not refused
with `EWOULDBLOCK`: it reports `ok high_watermark`. -/
theorem C4_counterexample :
    WriterReachable writerDemo1 ∧
    writerDemo1.high_watermark_active = true ∧
    writerDemo1.marks.low ≤ writerDemo1.queued_bytes ∧
    enqueue_owned writerDemo1 [] =
      (.ok backpressure_state.high_watermark, writerDemo1) :=
  ⟨writerDemo1_reachable, by decide, by decide, by rfl⟩

/-- C9: the constructor normalises its watermarks (`low = 0` becomes 1, a
high watermark below the low one is raised to it), no step modifies the
watermarks, and hence `1 ≤ low ∧ low ≤ high` holds in every reachable
state. -/
theorem C9_constructor_normalizes_watermarks :
    (∀ (v : Bool) (m : watermarks),
      (queued_writer.init v m).marks.low = (if m.low = 0 then 1 else m.low) ∧
      (queued_writer.init v m).marks.high =
        (if m.high < (if m.low = 0 then 1 else m.low)
          then (if m.low = 0 then 1 else m.low) else m.high)) ∧
    (∀ s s' : WriterState, WriterStep s s' → s'.marks = s.marks) ∧
    (∀ s : WriterState, WriterReachable s →
      1 ≤ s.marks.low ∧ s.marks.low ≤ s.marks.high) := by
  refine ⟨fun v m => ⟨rfl, rfl⟩, fun s s' h => writer_marks_step h,
    fun s h => ?_⟩
  obtain ⟨⟨h1, h2, _⟩, _⟩ := writer_inv_reachable h
  exact ⟨h1, h2⟩

theorem C9_witness :
    ((queued_writer.init true ⟨0, 0⟩).marks.low =
        (if (0 : Nat) = 0 then 1 else 0)) ∧
    writerDemo1.marks = writerDemo0.marks ∧
    (1 ≤ writerDemo1.marks.low ∧
      writerDemo1.marks.low ≤ writerDemo1.marks.high) :=
  ⟨(C9_constructor_normalizes_watermarks.1 true ⟨0, 0⟩).1,
    C9_constructor_normalizes_watermarks.2.1 writerDemo0 writerDemo1
      (WriterStep.enqueue writerDemo0 [1, 2, 3]),
    C9_constructor_normalizes_watermarks.2.2 writerDemo1 writerDemo1_reachable⟩

/-! ## `unique_fd` descriptor ownership (`src/unnamed/part_008`,
`unique_fd.hpp`)

A trace semantics over a heap of `unique_fd` objects.  An object is a
(address, `fd_`) pair; `::close` calls are collected in order.  The state
also carries two ghost lists used only to phrase theorems: `introduced`
records descriptors adopted from outside (constructor-from-int and
`reset(fd)` arguments), `escaped` records descriptors handed back to the
caller by `release()`. -/

/-- Occurrence count of an integer in a list. -/
def icount (f : Int) : List Int → Nat
  | [] => 0
  | x :: rest => (if x = f then 1 else 0) + icount f rest

theorem icount_append (f : Int) (l1 l2 : List Int) :
    icount f (l1 ++ l2) = icount f l1 + icount f l2 := by
  induction l1 with
  | nil => simp [icount]
  | cons x rest ih => simp [icount, ih]; omega

theorem icount_eq_zero {f : Int} {l : List Int} (h : f ∉ l) :
    icount f l = 0 := by
  induction l with
  | nil => rfl
  | cons x rest ih =>
    simp at h
    simp [icount, ih h.2, h.1, Ne.symm h.1]

theorem icount_pos {f : Int} {l : List Int} (h : f ∈ l) :
    0 < icount f l := by
  induction l with
  | nil => simp at h
  | cons x rest ih =>
    rcases List.mem_cons.mp h with h | h
    · simp [icount, h]
    · have := ih h
      simp [icount]
      omega

/-- Association-list lookup keyed by object address (`std::unordered_map`
`find`). -/
def alookup {α β : Type} [DecidableEq α] (o : α) : List (α × β) → Option β
  | [] => none
  | (k, v) :: rest => if o = k then some v else alookup o rest

/-- Association-list update; appends when the key is absent. -/
def aset {α β : Type} [DecidableEq α] (o : α) (v : β) :
    List (α × β) → List (α × β)
  | [] => [(o, v)]
  | (k, w) :: rest =>
    if o = k then (o, v) :: rest else (k, w) :: aset o v rest

/-- Association-list removal of the first entry with the given key. -/
def aerase {α β : Type} [DecidableEq α] (o : α) :
    List (α × β) → List (α × β)
  | [] => []
  | (k, w) :: rest =>
    if o = k then rest else (k, w) :: aerase o rest

theorem aset_lookup_self {α β : Type} [DecidableEq α] (o : α) (v : β)
    (objs : List (α × β)) :
    alookup o (aset o v objs) = some v := by
  induction objs with
  | nil => simp [aset, alookup]
  | cons p rest ih =>
    obtain ⟨k, w⟩ := p
    by_cases h : o = k <;> simp [aset, alookup, h, ih]

theorem aset_lookup_ne {α β : Type} [DecidableEq α] {o' o : α} (h : o' ≠ o)
    (v : β) (objs : List (α × β)) :
    alookup o' (aset o v objs) = alookup o' objs := by
  induction objs with
  | nil => simp [aset, alookup, h]
  | cons p rest ih =>
    obtain ⟨k, w⟩ := p
    by_cases hk : o = k
    · subst hk
      simp [aset, alookup, h]
    · by_cases h2 : o' = k <;> simp [aset, alookup, hk, h2, ih]

theorem aset_keys {α β : Type} [DecidableEq α] {o : α} {objs : List (α × β)}
    {cur : β} (hlk : alookup o objs = some cur) (v : β) :
    (aset o v objs).map Prod.fst = objs.map Prod.fst := by
  induction objs with
  | nil => simp [alookup] at hlk
  | cons p rest ih =>
    obtain ⟨k, w⟩ := p
    by_cases h : o = k
    · subst h
      simp [aset]
    · simp [alookup, h] at hlk
      simp [aset, h, ih hlk]

theorem aset_mem {α β : Type} [DecidableEq α] {p : α × β} {o : α} {v : β}
    {objs : List (α × β)} (hp : p ∈ aset o v objs) :
    p = (o, v) ∨ p ∈ objs := by
  induction objs with
  | nil => simp [aset] at hp; simp [hp]
  | cons q rest ih =>
    obtain ⟨k, w⟩ := q
    by_cases h : o = k
    · subst h
      simp [aset] at hp
      rcases hp with hp | hp
      · left; simp [hp]
      · right; simp [hp]
    · simp [aset, h] at hp
      rcases hp with hp | hp
      · right; simp [hp]
      · rcases ih hp with hh | hh
        · left; exact hh
        · right; simp [hh]

theorem aset_count {o : Nat} {objs : List (Nat × Int)} {cur : Int}
    (hlk : alookup o objs = some cur) (v f : Int) :
    icount f ((aset o v objs).map Prod.snd) + (if cur = f then 1 else 0) =
      icount f (objs.map Prod.snd) + (if v = f then 1 else 0) := by
  induction objs with
  | nil => simp [alookup] at hlk
  | cons p rest ih =>
    obtain ⟨k, w⟩ := p
    by_cases h : o = k
    · subst h
      simp [alookup] at hlk
      subst hlk
      simp [aset, icount]
      omega
    · simp [alookup, h] at hlk
      simp [aset, h, icount]
      have := ih hlk
      omega

theorem aerase_sublist {α β : Type} [DecidableEq α] (o : α)
    (objs : List (α × β)) :
    (aerase o objs).Sublist objs := by
  induction objs with
  | nil => simp [aerase]
  | cons p rest ih =>
    obtain ⟨k, w⟩ := p
    by_cases h : o = k
    · simp [aerase, h]
    · simp [aerase, h]
      exact ih

theorem aerase_count {o : Nat} {objs : List (Nat × Int)} {cur : Int}
    (hlk : alookup o objs = some cur) (f : Int) :
    icount f ((aerase o objs).map Prod.snd) + (if cur = f then 1 else 0) =
      icount f (objs.map Prod.snd) := by
  induction objs with
  | nil => simp [alookup] at hlk
  | cons p rest ih =>
    obtain ⟨k, w⟩ := p
    by_cases h : o = k
    · subst h
      simp [alookup] at hlk
      subst hlk
      simp [aerase, icount]
      omega
    · simp [alookup, h] at hlk
      simp [aerase, h, icount]
      have := ih hlk
      omega

theorem alookup_none_not_mem {α β : Type} [DecidableEq α] {o : α}
    {objs : List (α × β)} (h : alookup o objs = none) :
    o ∉ objs.map Prod.fst := by
  induction objs with
  | nil => simp
  | cons p rest ih =>
    obtain ⟨k, w⟩ := p
    by_cases hk : o = k
    · subst hk
      simp [alookup] at h
    · simp [alookup, hk] at h
      simp [hk, ih h]

theorem alookup_some_mem {α β : Type} [DecidableEq α] {o : α}
    {objs : List (α × β)} {v : β} (h : alookup o objs = some v) :
    (o, v) ∈ objs := by
  induction objs with
  | nil => simp [alookup] at h
  | cons p rest ih =>
    obtain ⟨k, w⟩ := p
    by_cases hk : o = k
    · subst hk
      simp [alookup] at h
      simp [h]
    · simp [alookup, hk] at h
      simp [ih h]

theorem mem_map_snd {α β : Type} {p : α × β} {objs : List (α × β)}
    (h : p ∈ objs) : p.2 ∈ objs.map Prod.snd :=
  List.mem_map.mpr ⟨p, h, rfl⟩

/-- Heap of live `unique_fd` objects plus the `::close` trace and ghost
bookkeeping. -/
structure FdState where
  objs : List (Nat × Int)
  closes : List Int
  introduced : List Int
  escaped : List Int
deriving DecidableEq, Repr

/-- The `unique_fd` operations of part_008: adopting constructor, move
construction, move assignment, `release`, `reset`, `swap`, destructor. -/
inductive FdOp
  | adopt (obj : Nat) (fd : Int)
  | moveCtor (dst src : Nat)
  | moveAssign (dst src : Nat)
  | release (obj : Nat)
  | reset (obj : Nat) (fd : Int)
  | swap (a b : Nat)
  | destroy (obj : Nat)
deriving DecidableEq, Repr

/-- `unique_fd::reset` (part_008 lines 42-50) acting on object `o`: if the
stored descriptor already equals `fd` do nothing, otherwise close the
stored descriptor when it is valid (`fd_ >= 0`) and store `fd`. -/
def reset_core (s : FdState) (o : Nat) (fd : Int) : FdState :=
  match alookup o s.objs with
  | none => s
  | some cur =>
    if cur = fd then s
    else
      { s with
        objs := aset o fd s.objs
        closes := if 0 ≤ cur then s.closes ++ [cur] else s.closes }

/-- Ghost bookkeeping: record a descriptor adopted from outside. -/
def introduce (s : FdState) (fd : Int) : FdState :=
  if 0 ≤ fd then { s with introduced := s.introduced ++ [fd] } else s

/-- One `unique_fd` operation.  Operations whose object references do not
exist (a use of a dead object, impossible in C++) are no-ops. -/
def fdStep (s : FdState) : FdOp → FdState
  | .adopt o fd =>
    match alookup o s.objs with
    | some _ => s
    | none => introduce { s with objs := s.objs ++ [(o, fd)] } fd
  | .moveCtor dst src =>
    match alookup dst s.objs, alookup src s.objs with
    | none, some v =>
      { s with objs := aset src (-1) s.objs ++ [(dst, v)] }
    | _, _ => s
  | .moveAssign dst src =>
    if dst = src then s
    else
      match alookup dst s.objs, alookup src s.objs with
      | some _, some v =>
        reset_core { s with objs := aset src (-1) s.objs } dst v
      | _, _ => s
  | .release o =>
    match alookup o s.objs with
    | none => s
    | some v =>
      let s1 := { s with objs := aset o (-1) s.objs }
      if 0 ≤ v then { s1 with escaped := s1.escaped ++ [v] } else s1
  | .reset o fd =>
    match alookup o s.objs with
    | none => s
    | some _ => introduce (reset_core s o fd) fd
  | .swap a b =>
    match alookup a s.objs, alookup b s.objs with
    | some va, some vb =>
      { s with objs := aset a vb (aset b va s.objs) }
    | _, _ => s
  | .destroy o =>
    match alookup o s.objs with
    | none => s
    | some _ =>
      let s1 := reset_core s o (-1)
      { s1 with objs := aerase o s1.objs }

/-- Freshness discipline for a trace: a descriptor adopted from outside
(constructor or `reset` argument) has not been seen before — the kernel
hands out descriptors not currently owned. -/
def wfOp (s : FdState) : FdOp → Bool
  | .adopt _ fd => decide (fd ∉ s.introduced)
  | .reset _ fd => decide (fd ∉ s.introduced)
  | _ => true

def wfTrace : FdState → List FdOp → Bool
  | _, [] => true
  | s, op :: rest => wfOp s op && wfTrace (fdStep s op) rest

def fdRun : FdState → List FdOp → FdState
  | s, [] => s
  | s, op :: rest => fdRun (fdStep s op) rest

def fdInit : FdState := ⟨[], [], [], []⟩

/-- Number of live objects currently owning descriptor `f`. -/
def owners (s : FdState) (f : Int) : Nat := icount f (s.objs.map Prod.snd)

/-- Number of `::close(f)` calls issued so far. -/
def closeCount (s : FdState) (f : Int) : Nat := icount f s.closes

/-- Ownership linearity invariant: object addresses are unique, every
owned valid descriptor and every closed or escaped descriptor was
introduced, and each introduced descriptor is either escaped (then
neither owned nor closed) or owned-or-closed exactly once. -/
def fd_inv (s : FdState) : Prop :=
  (s.objs.map Prod.fst).Nodup ∧
  (∀ p ∈ s.objs, 0 ≤ p.2 → p.2 ∈ s.introduced) ∧
  (∀ f ∈ s.closes, f ∈ s.introduced) ∧
  (∀ f ∈ s.escaped, f ∈ s.introduced) ∧
  (∀ f : Int, 0 ≤ f → f ∈ s.introduced →
    (f ∈ s.escaped → owners s f = 0 ∧ closeCount s f = 0) ∧
    (f ∉ s.escaped → owners s f + closeCount s f = 1))

theorem mem_of_icount_pos {f : Int} {l : List Int} (h : 0 < icount f l) :
    f ∈ l := by
  induction l with
  | nil => simp [icount] at h
  | cons x rest ih =>
    by_cases hx : x = f
    · simp [hx]
    · simp [icount, hx] at h
      simp [ih h]

/-- A descriptor never introduced is neither owned (when valid), closed
nor escaped. -/
theorem not_introduced_counts {s : FdState} (hinv : fd_inv s) {f : Int}
    (hf : 0 ≤ f) (hni : f ∉ s.introduced) :
    owners s f = 0 ∧ closeCount s f = 0 ∧ f ∉ s.escaped := by
  obtain ⟨_, h2, h3, h4, _⟩ := hinv
  refine ⟨?_, ?_, fun he => hni (h4 f he)⟩
  · by_contra hpos
    have hmem := mem_of_icount_pos (Nat.pos_of_ne_zero hpos)
    obtain ⟨p, hp, hpf⟩ := List.mem_map.mp hmem
    exact hni (hpf ▸ h2 p hp (hpf ▸ hf))
  · exact icount_eq_zero fun hc => hni (h3 f hc)

/-- A currently-owned valid descriptor has not escaped. -/
theorem owned_not_escaped {s : FdState} (hinv : fd_inv s) {p : Nat × Int}
    (hp : p ∈ s.objs) (hpos : 0 ≤ p.2) : p.2 ∉ s.escaped := by
  obtain ⟨_, h2, _, _, h5⟩ := hinv
  intro he
  have hcnt := ((h5 p.2 hpos (h2 p hp hpos)).1 he).1
  have := icount_pos (mem_map_snd hp)
  simp [owners] at hcnt
  omega

theorem two_owners {a b : Nat} {f : Int} {objs : List (Nat × Int)}
    (ha : (a, f) ∈ objs) (hb : (b, f) ∈ objs) (hab : a ≠ b) :
    2 ≤ icount f (objs.map Prod.snd) := by
  induction objs with
  | nil => simp at ha
  | cons p rest ih =>
    rcases List.mem_cons.mp ha with ha' | ha' <;>
      rcases List.mem_cons.mp hb with hb' | hb'
    · exact absurd (ha' ▸ hb' ▸ rfl : (a, f) = (b, f))
        (by simp [hab])
    · have : f ∈ rest.map Prod.snd := mem_map_snd hb'
      have hpos := icount_pos this
      simp [← ha', icount]
      omega
    · have : f ∈ rest.map Prod.snd := mem_map_snd ha'
      have hpos := icount_pos this
      simp [← hb', icount]
      omega
    · have := ih ha' hb'
      simp [icount]
      omega

theorem fd_inv_adopt {s : FdState} (hinv : fd_inv s) {o : Nat} {fd : Int}
    (hwf : fd ∉ s.introduced) : fd_inv (fdStep s (.adopt o fd)) := by
  obtain ⟨h1, h2, h3, h4, h5⟩ := hinv
  cases hlk : alookup o s.objs with
  | some v => simpa only [fdStep, hlk] using ⟨h1, h2, h3, h4, h5⟩
  | none =>
    simp only [fdStep, hlk]
    have hko : o ∉ s.objs.map Prod.fst := alookup_none_not_mem hlk
    have hnd' : ((s.objs ++ [(o, fd)]).map Prod.fst).Nodup := by
      rw [List.map_append]
      refine List.Nodup.append h1 (by simp) ?_
      intro a ha hb
      simp at hb
      exact hko (hb ▸ ha)
    have hcnt : ∀ f : Int,
        icount f ((s.objs ++ [(o, fd)]).map Prod.snd) =
          icount f (s.objs.map Prod.snd) + (if fd = f then 1 else 0) := by
      intro f
      simp [List.map_append, icount_append, icount]
    unfold introduce
    split
    · rename_i hfd
      refine ⟨hnd', ?_, ?_, ?_, ?_⟩
      · intro p hp hpos
        dsimp only at hp ⊢
        rcases List.mem_append.mp hp with hp | hp
        · exact List.mem_append_left _ (h2 p hp hpos)
        · simp at hp
          subst hp
          simp
      · intro f hf
        exact List.mem_append_left _ (h3 f hf)
      · intro f hf
        exact List.mem_append_left _ (h4 f hf)
      · intro f hfpos hfi
        dsimp only at hfi ⊢
        have hnew := not_introduced_counts ⟨h1, h2, h3, h4, h5⟩ hfpos
        rcases List.mem_append.mp hfi with hfi | hfi
        · -- previously introduced descriptor: untouched (fd is fresh)
          have hne : fd ≠ f := fun h => hwf (h ▸ hfi)
          have hcf := hcnt f
          rw [if_neg hne] at hcf
          constructor
          · intro he
            have := (h5 f hfpos hfi).1 he
            simp only [owners, closeCount] at this ⊢
            omega
          · intro he
            have := (h5 f hfpos hfi).2 he
            simp only [owners, closeCount] at this ⊢
            omega
        · -- the newly adopted descriptor
          simp at hfi
          subst hfi
          obtain ⟨ho, hc, hesc⟩ := hnew hwf
          have hcf := hcnt f
          rw [if_pos rfl] at hcf
          refine ⟨fun he => absurd he hesc, fun _ => ?_⟩
          simp only [owners, closeCount] at ho hc ⊢
          omega
    · rename_i hfd
      have hfdneg : fd < 0 := by omega
      refine ⟨hnd', ?_, h3, h4, ?_⟩
      · intro p hp hpos
        dsimp only at hp ⊢
        rcases List.mem_append.mp hp with hp | hp
        · exact h2 p hp hpos
        · simp at hp
          subst hp
          dsimp only at hpos
          omega
      · intro f hfpos hfi
        dsimp only at hfi ⊢
        have hne : fd ≠ f := by omega
        have hcf := hcnt f
        rw [if_neg hne] at hcf
        constructor
        · intro he
          have := (h5 f hfpos hfi).1 he
          simp only [owners, closeCount] at this ⊢
          omega
        · intro he
          have := (h5 f hfpos hfi).2 he
          simp only [owners, closeCount] at this ⊢
          omega

theorem fd_inv_release {s : FdState} (hinv : fd_inv s) {o : Nat} :
    fd_inv (fdStep s (.release o)) := by
  obtain ⟨h1, h2, h3, h4, h5⟩ := hinv
  cases hlk : alookup o s.objs with
  | none => simpa only [fdStep, hlk] using ⟨h1, h2, h3, h4, h5⟩
  | some v =>
    simp only [fdStep, hlk]
    have hov : (o, v) ∈ s.objs := alookup_some_mem hlk
    have hkeys := aset_keys hlk (-1)
    have hcnt := fun f => aset_count hlk (-1) f
    have hmem2 : ∀ p ∈ aset o (-1) s.objs, 0 ≤ p.2 → p.2 ∈ s.introduced := by
      intro p hp hpos
      rcases aset_mem hp with hp | hp
      · subst hp
        dsimp only at hpos
        omega
      · exact h2 p hp hpos
    split
    · rename_i hvpos
      have hvi : v ∈ s.introduced := h2 (o, v) hov hvpos
      have hvesc : v ∉ s.escaped := owned_not_escaped ⟨h1, h2, h3, h4, h5⟩ hov hvpos
      refine ⟨by rw [hkeys]; exact h1, hmem2, h3, ?_, ?_⟩
      · intro f hf
        dsimp only at hf
        rcases List.mem_append.mp hf with hf | hf
        · exact h4 f hf
        · simp at hf
          exact hf ▸ hvi
      · intro f hfpos hfi
        dsimp only at hfi ⊢
        have hcf := hcnt f
        by_cases hvf : v = f
        · subst hvf
          have hsum := (h5 v hfpos hfi).2 hvesc
          have hown : 0 < owners s v := icount_pos (mem_map_snd hov)
          refine ⟨fun _ => ?_, fun he => absurd (by simp) he⟩
          have hne1 : ¬((-1 : Int) = v) := by omega
          simp only [owners, closeCount] at hsum hown hcf ⊢
          simp [hne1] at hcf
          omega
        · have hesc' : (f ∈ s.escaped ++ [v]) ↔ f ∈ s.escaped := by
            simp [Ne.symm hvf]
          have hne1 : ¬((-1 : Int) = f) := by omega
          rw [if_neg hvf, if_neg hne1] at hcf
          constructor
          · intro he
            have := (h5 f hfpos hfi).1 (hesc'.mp he)
            simp only [owners, closeCount] at this ⊢
            omega
          · intro he
            have := (h5 f hfpos hfi).2 (fun hh => he (hesc'.mpr hh))
            simp only [owners, closeCount] at this ⊢
            omega
    · rename_i hvneg
      refine ⟨by rw [hkeys]; exact h1, hmem2, h3, h4, ?_⟩
      intro f hfpos hfi
      dsimp only at hfi ⊢
      have hcf := hcnt f
      have hne1 : ¬((-1 : Int) = f) := by omega
      have hnev : ¬(v = f) := by omega
      rw [if_neg hnev, if_neg hne1] at hcf
      constructor
      · intro he
        have := (h5 f hfpos hfi).1 he
        simp only [owners, closeCount] at this ⊢
        omega
      · intro he
        have := (h5 f hfpos hfi).2 he
        simp only [owners, closeCount] at this ⊢
        omega

theorem fd_inv_reset {s : FdState} (hinv : fd_inv s) {o : Nat} {fd : Int}
    (hwf : fd ∉ s.introduced) : fd_inv (fdStep s (.reset o fd)) := by
  obtain ⟨h1, h2, h3, h4, h5⟩ := hinv
  cases hlk : alookup o s.objs with
  | none => simpa only [fdStep, hlk] using ⟨h1, h2, h3, h4, h5⟩
  | some cur =>
    simp only [fdStep, hlk]
    have hocur : (o, cur) ∈ s.objs := alookup_some_mem hlk
    by_cases hcf : cur = fd
    · -- early return: the object already stores fd
      simp only [reset_core, hlk, if_pos hcf]
      unfold introduce
      split
      · rename_i hfd
        exact absurd (h2 (o, cur) hocur (hcf ▸ hfd)) (hcf ▸ hwf)
      · exact ⟨h1, h2, h3, h4, h5⟩
    · simp only [reset_core, hlk, if_neg hcf]
      have hkeys := aset_keys hlk fd
      have hcnt := fun f => aset_count hlk fd f
      have hclo : ∀ f : Int, 0 ≤ f →
          icount f (if 0 ≤ cur then s.closes ++ [cur] else s.closes) =
            closeCount s f + (if cur = f then 1 else 0) := by
        intro f hf
        split
        · simp [icount_append, icount, closeCount]
        · rename_i hcur
          have : ¬(cur = f) := by omega
          simp [this, closeCount]
      have hclosub : ∀ f : Int,
          f ∈ (if 0 ≤ cur then s.closes ++ [cur] else s.closes) →
            f ∈ s.introduced := by
        intro f hf
        split at hf
        · rename_i hcur
          rcases List.mem_append.mp hf with hf | hf
          · exact h3 f hf
          · simp at hf
            exact hf ▸ h2 (o, cur) hocur hcur
        · exact h3 f hf
      -- counting for previously introduced descriptors
      have hold : ∀ f : Int, 0 ≤ f → f ∈ s.introduced →
          (f ∈ s.escaped → icount f ((aset o fd s.objs).map Prod.snd) = 0 ∧
              icount f (if 0 ≤ cur then s.closes ++ [cur] else s.closes) = 0) ∧
          (f ∉ s.escaped → icount f ((aset o fd s.objs).map Prod.snd) +
              icount f (if 0 ≤ cur then s.closes ++ [cur] else s.closes) = 1) := by
        intro f hfpos hfi
        have hfdne : fd ≠ f := fun h => hwf (h ▸ hfi)
        have hcf1 := hcnt f
        have hcl1 := hclo f hfpos
        rw [if_neg hfdne] at hcf1
        by_cases hcf2 : cur = f
        · -- the closed descriptor itself
          subst hcf2
          have hcesc : cur ∉ s.escaped :=
            owned_not_escaped ⟨h1, h2, h3, h4, h5⟩ hocur hfpos
          have hsum := (h5 cur hfpos hfi).2 hcesc
          have hown : 0 < owners s cur := icount_pos (mem_map_snd hocur)
          rw [if_pos rfl] at hcf1 hcl1
          refine ⟨fun he => absurd he hcesc, fun _ => ?_⟩
          simp only [owners, closeCount] at hsum hown hcf1 hcl1 ⊢
          omega
        · rw [if_neg hcf2] at hcf1 hcl1
          constructor
          · intro he
            have := (h5 f hfpos hfi).1 he
            simp only [owners, closeCount] at this hcf1 hcl1 ⊢
            omega
          · intro he
            have := (h5 f hfpos hfi).2 he
            simp only [owners, closeCount] at this hcf1 hcl1 ⊢
            omega
      unfold introduce
      split
      · rename_i hfd
        refine ⟨by rw [hkeys]; exact h1, ?_, ?_, ?_, ?_⟩
        · intro p hp hpos
          dsimp only at hp ⊢
          rcases aset_mem hp with hp | hp
          · subst hp
            simp
          · exact List.mem_append_left _ (h2 p hp hpos)
        · intro f hf
          exact List.mem_append_left _ (hclosub f hf)
        · intro f hf
          exact List.mem_append_left _ (h4 f hf)
        · intro f hfpos hfi
          dsimp only at hfi ⊢
          rcases List.mem_append.mp hfi with hfi | hfi
          · exact hold f hfpos hfi
          · -- the freshly adopted descriptor
            simp at hfi
            subst hfi
            obtain ⟨ho, hc, hesc⟩ :=
              not_introduced_counts ⟨h1, h2, h3, h4, h5⟩ hfpos hwf
            have hcf1 := hcnt f
            have hcl1 := hclo f hfpos
            have hcurne : ¬(cur = f) := fun h =>
              hwf (h ▸ h2 (o, cur) hocur (h ▸ hfpos))
            rw [if_pos rfl, if_neg hcurne] at hcf1
            rw [if_neg hcurne] at hcl1
            refine ⟨fun he => absurd he hesc, fun _ => ?_⟩
            simp only [owners, closeCount] at ho hc hcf1 hcl1 ⊢
            omega
      · rename_i hfd
        refine ⟨by rw [hkeys]; exact h1, ?_, hclosub, h4, ?_⟩
        · intro p hp hpos
          dsimp only at hp ⊢
          rcases aset_mem hp with hp | hp
          · subst hp
            dsimp only at hpos
            omega
          · exact h2 p hp hpos
        · intro f hfpos hfi
          exact hold f hfpos hfi

theorem fd_inv_moveCtor {s : FdState} (hinv : fd_inv s) {dst src : Nat} :
    fd_inv (fdStep s (.moveCtor dst src)) := by
  obtain ⟨h1, h2, h3, h4, h5⟩ := hinv
  cases hld : alookup dst s.objs with
  | some v =>
    cases hls : alookup src s.objs with
    | some w => simpa only [fdStep, hld, hls] using ⟨h1, h2, h3, h4, h5⟩
    | none => simpa only [fdStep, hld, hls] using ⟨h1, h2, h3, h4, h5⟩
  | none =>
    cases hls : alookup src s.objs with
    | none => simpa only [fdStep, hld, hls] using ⟨h1, h2, h3, h4, h5⟩
    | some v =>
      simp only [fdStep, hld, hls]
      have hsv : (src, v) ∈ s.objs := alookup_some_mem hls
      have hkd : dst ∉ s.objs.map Prod.fst := alookup_none_not_mem hld
      have hkeys := aset_keys hls (-1)
      have hcnt : ∀ f : Int, 0 ≤ f →
          icount f ((aset src (-1) s.objs ++ [(dst, v)]).map Prod.snd) =
            owners s f := by
        intro f hf
        have hin := aset_count hls (-1) f
        have hne1 : ¬((-1 : Int) = f) := by omega
        rw [if_neg hne1] at hin
        simp only [List.map_append, icount_append]
        simp only [owners] at hin ⊢
        simp [icount]
        omega
      refine ⟨?_, ?_, h3, h4, ?_⟩
      · dsimp only
        rw [List.map_append, hkeys]
        refine List.Nodup.append h1 (by simp) ?_
        intro a ha hb
        simp at hb
        exact hkd (hb ▸ ha)
      · intro p hp hpos
        dsimp only at hp ⊢
        rcases List.mem_append.mp hp with hp | hp
        · rcases aset_mem hp with hp | hp
          · subst hp
            dsimp only at hpos
            omega
          · exact h2 p hp hpos
        · simp at hp
          subst hp
          exact h2 (src, v) hsv hpos
      · intro f hfpos hfi
        dsimp only at hfi ⊢
        have hc := hcnt f hfpos
        constructor
        · intro he
          have := (h5 f hfpos hfi).1 he
          simp only [owners, closeCount] at this hc ⊢
          omega
        · intro he
          have := (h5 f hfpos hfi).2 he
          simp only [owners, closeCount] at this hc ⊢
          omega

theorem fd_inv_moveAssign {s : FdState} (hinv : fd_inv s) {dst src : Nat} :
    fd_inv (fdStep s (.moveAssign dst src)) := by
  obtain ⟨h1, h2, h3, h4, h5⟩ := hinv
  by_cases hds : dst = src
  · simpa only [fdStep, if_pos hds] using ⟨h1, h2, h3, h4, h5⟩
  · cases hld : alookup dst s.objs with
    | none =>
      cases hls : alookup src s.objs with
      | none => simpa only [fdStep, if_neg hds, hld, hls] using ⟨h1, h2, h3, h4, h5⟩
      | some v => simpa only [fdStep, if_neg hds, hld, hls] using ⟨h1, h2, h3, h4, h5⟩
    | some d =>
      cases hls : alookup src s.objs with
      | none => simpa only [fdStep, if_neg hds, hld, hls] using ⟨h1, h2, h3, h4, h5⟩
      | some v =>
        simp only [fdStep, if_neg hds, hld, hls]
        have hdd : (dst, d) ∈ s.objs := alookup_some_mem hld
        have hsv : (src, v) ∈ s.objs := alookup_some_mem hls
        have hld' : alookup dst (aset src (-1) s.objs) = some d := by
          rw [aset_lookup_ne hds (-1) s.objs]
          exact hld
        have hkeysin := aset_keys hls (-1)
        simp only [reset_core, hld']
        by_cases hdv : d = v
        · -- src and dst store the same descriptor
          rw [if_pos hdv]
          by_cases hvpos : 0 ≤ v
          · -- impossible: two distinct owners of one valid descriptor
            exfalso
            have h2own := two_owners (hdv ▸ hdd) hsv hds
            have hvi : v ∈ s.introduced := h2 (src, v) hsv hvpos
            have hvesc : v ∉ s.escaped :=
              owned_not_escaped ⟨h1, h2, h3, h4, h5⟩ hsv hvpos
            have hsum := (h5 v hvpos hvi).2 hvesc
            simp only [owners] at hsum
            omega
          · -- both invalid: only src is nulled, nothing closes
            refine ⟨by rw [hkeysin]; exact h1, ?_, h3, h4, ?_⟩
            · intro p hp hpos
              dsimp only at hp ⊢
              rcases aset_mem hp with hp | hp
              · subst hp
                dsimp only at hpos
                omega
              · exact h2 p hp hpos
            · intro f hfpos hfi
              dsimp only at hfi ⊢
              have hin := aset_count hls (-1) f
              have hne1 : ¬((-1 : Int) = f) := by omega
              have hnev : ¬(v = f) := by omega
              rw [if_neg hne1, if_neg hnev] at hin
              constructor
              · intro he
                have := (h5 f hfpos hfi).1 he
                simp only [owners, closeCount] at this hin ⊢
                omega
              · intro he
                have := (h5 f hfpos hfi).2 he
                simp only [owners, closeCount] at this hin ⊢
                omega
        · -- dst closes its descriptor and adopts src's
          rw [if_neg hdv]
          have hkeyout := aset_keys hld' v
          have hcl : ∀ f : Int, 0 ≤ f →
              icount f (if 0 ≤ d then s.closes ++ [d] else s.closes) =
                closeCount s f + (if d = f then 1 else 0) := by
            intro f hf
            split
            · simp [icount_append, icount, closeCount]
            · rename_i hd
              have : ¬(d = f) := by omega
              simp [this, closeCount]
          have hcnt : ∀ f : Int, 0 ≤ f →
              icount f ((aset dst v (aset src (-1) s.objs)).map Prod.snd) +
                  (if d = f then 1 else 0) = owners s f := by
            intro f hf
            have hout := aset_count hld' v f
            have hin := aset_count hls (-1) f
            have hne1 : ¬((-1 : Int) = f) := by omega
            rw [if_neg hne1] at hin
            simp only [owners] at hin ⊢
            omega
          refine ⟨by rw [hkeyout, hkeysin]; exact h1, ?_, ?_, h4, ?_⟩
          · intro p hp hpos
            dsimp only at hp ⊢
            rcases aset_mem hp with hp | hp
            · subst hp
              exact h2 (src, v) hsv hpos
            · rcases aset_mem hp with hp | hp
              · subst hp
                dsimp only at hpos
                omega
              · exact h2 p hp hpos
          · intro f hf
            dsimp only at hf ⊢
            split at hf
            · rename_i hd
              rcases List.mem_append.mp hf with hf | hf
              · exact h3 f hf
              · simp at hf
                exact hf ▸ h2 (dst, d) hdd hd
            · exact h3 f hf
          · intro f hfpos hfi
            dsimp only at hfi ⊢
            have hc := hcnt f hfpos
            have hl := hcl f hfpos
            by_cases hdf : d = f
            · subst hdf
              have hdesc : d ∉ s.escaped :=
                owned_not_escaped ⟨h1, h2, h3, h4, h5⟩ hdd hfpos
              have hsum := (h5 d hfpos hfi).2 hdesc
              have hown : 0 < owners s d := icount_pos (mem_map_snd hdd)
              rw [if_pos rfl] at hc hl
              refine ⟨fun he => absurd he hdesc, fun _ => ?_⟩
              simp only [owners, closeCount] at hsum hown hc hl ⊢
              omega
            · rw [if_neg hdf] at hc hl
              constructor
              · intro he
                have := (h5 f hfpos hfi).1 he
                simp only [owners, closeCount] at this hc hl ⊢
                omega
              · intro he
                have := (h5 f hfpos hfi).2 he
                simp only [owners, closeCount] at this hc hl ⊢
                omega

theorem fd_inv_swap {s : FdState} (hinv : fd_inv s) {a b : Nat} :
    fd_inv (fdStep s (.swap a b)) := by
  obtain ⟨h1, h2, h3, h4, h5⟩ := hinv
  cases hla : alookup a s.objs with
  | none =>
    cases hlb : alookup b s.objs with
    | none => simpa only [fdStep, hla, hlb] using ⟨h1, h2, h3, h4, h5⟩
    | some vb => simpa only [fdStep, hla, hlb] using ⟨h1, h2, h3, h4, h5⟩
  | some va =>
    cases hlb : alookup b s.objs with
    | none => simpa only [fdStep, hla, hlb] using ⟨h1, h2, h3, h4, h5⟩
    | some vb =>
      simp only [fdStep, hla, hlb]
      have hav : (a, va) ∈ s.objs := alookup_some_mem hla
      have hbv : (b, vb) ∈ s.objs := alookup_some_mem hlb
      have hkeysin := aset_keys hlb va
      have hla' : alookup a (aset b va s.objs) = some va := by
        by_cases hab : a = b
        · subst hab
          rw [hla] at hlb
          injection hlb with hvv
          subst hvv
          exact aset_lookup_self a va s.objs
        · rw [aset_lookup_ne hab va s.objs]
          exact hla
      have hkeyout := aset_keys hla' vb
      have hcnt : ∀ f : Int,
          icount f ((aset a vb (aset b va s.objs)).map Prod.snd) =
            owners s f := by
        intro f
        have hout := aset_count hla' vb f
        have hin := aset_count hlb va f
        simp only [owners] at hin ⊢
        omega
      refine ⟨by rw [hkeyout, hkeysin]; exact h1, ?_, h3, h4, ?_⟩
      · intro p hp hpos
        dsimp only at hp ⊢
        rcases aset_mem hp with hp | hp
        · subst hp
          exact h2 (b, vb) hbv hpos
        · rcases aset_mem hp with hp | hp
          · subst hp
            exact h2 (a, va) hav hpos
          · exact h2 p hp hpos
      · intro f hfpos hfi
        dsimp only at hfi ⊢
        have hc := hcnt f
        constructor
        · intro he
          have := (h5 f hfpos hfi).1 he
          simp only [owners, closeCount] at this hc ⊢
          omega
        · intro he
          have := (h5 f hfpos hfi).2 he
          simp only [owners, closeCount] at this hc ⊢
          omega

theorem fd_inv_destroy {s : FdState} (hinv : fd_inv s) {o : Nat} :
    fd_inv (fdStep s (.destroy o)) := by
  obtain ⟨h1, h2, h3, h4, h5⟩ := hinv
  cases hlk : alookup o s.objs with
  | none => simpa only [fdStep, hlk] using ⟨h1, h2, h3, h4, h5⟩
  | some cur =>
    simp only [fdStep, hlk]
    have hocur : (o, cur) ∈ s.objs := alookup_some_mem hlk
    by_cases hc1 : cur = -1
    · -- the object was empty: nothing closes, the entry disappears
      simp only [reset_core, hlk, if_pos hc1]
      have hsub := aerase_sublist o s.objs
      have hcnt : ∀ f : Int, 0 ≤ f →
          icount f ((aerase o s.objs).map Prod.snd) = owners s f := by
        intro f hf
        have he := aerase_count hlk f
        have hne : ¬(cur = f) := by omega
        rw [if_neg hne] at he
        simpa [owners] using he
      refine ⟨?_, ?_, h3, h4, ?_⟩
      · exact List.Nodup.sublist (List.Sublist.map Prod.fst hsub) h1
      · intro p hp hpos
        exact h2 p (hsub.subset hp) hpos
      · intro f hfpos hfi
        dsimp only at hfi ⊢
        have hcf := hcnt f hfpos
        constructor
        · intro he
          have := (h5 f hfpos hfi).1 he
          simp only [owners, closeCount] at this hcf ⊢
          omega
        · intro he
          have := (h5 f hfpos hfi).2 he
          simp only [owners, closeCount] at this hcf ⊢
          omega
    · -- close the stored descriptor (when valid) and drop the entry
      simp only [reset_core, hlk, if_neg hc1]
      have hset : alookup o (aset o (-1) s.objs) = some (-1) :=
        aset_lookup_self o (-1) s.objs
      have hsub := aerase_sublist o (aset o (-1) s.objs)
      have hkeys := aset_keys hlk (-1)
      have hcl : ∀ f : Int, 0 ≤ f →
          icount f (if 0 ≤ cur then s.closes ++ [cur] else s.closes) =
            closeCount s f + (if cur = f then 1 else 0) := by
        intro f hf
        split
        · simp [icount_append, icount, closeCount]
        · rename_i hcur
          have : ¬(cur = f) := by omega
          simp [this, closeCount]
      have hcnt : ∀ f : Int, 0 ≤ f →
          icount f ((aerase o (aset o (-1) s.objs)).map Prod.snd) +
              (if cur = f then 1 else 0) = owners s f := by
        intro f hf
        have he := aerase_count hset f
        have hs := aset_count hlk (-1) f
        have hne1 : ¬((-1 : Int) = f) := by omega
        rw [if_neg hne1] at he hs
        simp only [owners] at hs ⊢
        omega
      refine ⟨?_, ?_, ?_, h4, ?_⟩
      · refine List.Nodup.sublist (List.Sublist.map Prod.fst hsub) ?_
        rw [hkeys]
        exact h1
      · intro p hp hpos
        dsimp only at hp ⊢
        rcases aset_mem (hsub.subset hp) with hp' | hp'
        · subst hp'
          dsimp only at hpos
          omega
        · exact h2 p hp' hpos
      · intro f hf
        dsimp only at hf ⊢
        split at hf
        · rename_i hcur
          rcases List.mem_append.mp hf with hf | hf
          · exact h3 f hf
          · simp at hf
            exact hf ▸ h2 (o, cur) hocur hcur
        · exact h3 f hf
      · intro f hfpos hfi
        dsimp only at hfi ⊢
        have hcf := hcnt f hfpos
        have hlf := hcl f hfpos
        by_cases hcf2 : cur = f
        · subst hcf2
          have hcesc : cur ∉ s.escaped :=
            owned_not_escaped ⟨h1, h2, h3, h4, h5⟩ hocur hfpos
          have hsum := (h5 cur hfpos hfi).2 hcesc
          have hown : 0 < owners s cur := icount_pos (mem_map_snd hocur)
          rw [if_pos rfl] at hcf hlf
          refine ⟨fun he => absurd he hcesc, fun _ => ?_⟩
          simp only [owners, closeCount] at hsum hown hcf hlf ⊢
          omega
        · rw [if_neg hcf2] at hcf hlf
          constructor
          · intro he
            have := (h5 f hfpos hfi).1 he
            simp only [owners, closeCount] at this hcf hlf ⊢
            omega
          · intro he
            have := (h5 f hfpos hfi).2 he
            simp only [owners, closeCount] at this hcf hlf ⊢
            omega

/-- The ownership invariant is preserved by every well-formed operation. -/
theorem fd_inv_step {s : FdState} (hinv : fd_inv s) {op : FdOp}
    (hwf : wfOp s op = true) : fd_inv (fdStep s op) := by
  cases op with
  | adopt o fd =>
    exact fd_inv_adopt hinv (of_decide_eq_true hwf)
  | moveCtor dst src => exact fd_inv_moveCtor hinv
  | moveAssign dst src => exact fd_inv_moveAssign hinv
  | release o => exact fd_inv_release hinv
  | reset o fd =>
    exact fd_inv_reset hinv (of_decide_eq_true hwf)
  | swap a b => exact fd_inv_swap hinv
  | destroy o => exact fd_inv_destroy hinv

theorem fd_inv_init : fd_inv fdInit := by
  refine ⟨by simp [fdInit], by simp [fdInit], by simp [fdInit],
    by simp [fdInit], ?_⟩
  intro f _ hfi
  simp [fdInit] at hfi

theorem fd_inv_run {s : FdState} (hinv : fd_inv s) (ops : List FdOp)
    (hwf : wfTrace s ops = true) : fd_inv (fdRun s ops) := by
  induction ops generalizing s with
  | nil => exact hinv
  | cons op rest ih =>
    simp only [wfTrace, Bool.and_eq_true] at hwf
    exact ih (fd_inv_step hinv hwf.1) hwf.2

theorem reset_core_introduced (s : FdState) (o : Nat) (fd : Int) :
    (reset_core s o fd).introduced = s.introduced := by
  cases hlk : alookup o s.objs with
  | none => simp [reset_core, hlk]
  | some cur =>
    simp only [reset_core, hlk]
    split <;> rfl

/-- Only `introduce` grows the ghost list of adopted descriptors, and it
only records valid ones. -/
theorem introduced_nonneg_step {s : FdState}
    (h : ∀ f ∈ s.introduced, (0 : Int) ≤ f) (op : FdOp) :
    ∀ f ∈ (fdStep s op).introduced, (0 : Int) ≤ f := by
  have hintro : ∀ (t : FdState) (fd : Int),
      (∀ f ∈ t.introduced, (0 : Int) ≤ f) →
        ∀ f ∈ (introduce t fd).introduced, (0 : Int) ≤ f := by
    intro t fd ht
    unfold introduce
    split
    · rename_i hfd
      intro f hf
      rcases List.mem_append.mp hf with hf | hf
      · exact ht f hf
      · simp at hf
        omega
    · exact ht
  cases op with
  | adopt o fd =>
    cases hlk : alookup o s.objs with
    | some v => simpa only [fdStep, hlk] using h
    | none =>
      simp only [fdStep, hlk]
      exact hintro _ fd h
  | moveCtor dst src =>
    cases hld : alookup dst s.objs with
    | some v =>
      cases hls : alookup src s.objs with
      | some w => simpa only [fdStep, hld, hls] using h
      | none => simpa only [fdStep, hld, hls] using h
    | none =>
      cases hls : alookup src s.objs with
      | none => simpa only [fdStep, hld, hls] using h
      | some v => simpa only [fdStep, hld, hls] using h
  | moveAssign dst src =>
    by_cases hds : dst = src
    · simpa only [fdStep, if_pos hds] using h
    · cases hld : alookup dst s.objs with
      | none =>
        cases hls : alookup src s.objs with
        | none => simpa only [fdStep, if_neg hds, hld, hls] using h
        | some v => simpa only [fdStep, if_neg hds, hld, hls] using h
      | some d =>
        cases hls : alookup src s.objs with
        | none => simpa only [fdStep, if_neg hds, hld, hls] using h
        | some v =>
          simpa only [fdStep, if_neg hds, hld, hls,
            reset_core_introduced] using h
  | release o =>
    cases hlk : alookup o s.objs with
    | none => simpa only [fdStep, hlk] using h
    | some v =>
      simp only [fdStep, hlk]
      split <;> exact h
  | reset o fd =>
    cases hlk : alookup o s.objs with
    | none => simpa only [fdStep, hlk] using h
    | some cur =>
      simp only [fdStep, hlk]
      refine hintro _ fd ?_
      rw [reset_core_introduced]
      exact h
  | swap a b =>
    cases hla : alookup a s.objs with
    | none =>
      cases hlb : alookup b s.objs with
      | none => simpa only [fdStep, hla, hlb] using h
      | some vb => simpa only [fdStep, hla, hlb] using h
    | some va =>
      cases hlb : alookup b s.objs with
      | none => simpa only [fdStep, hla, hlb] using h
      | some vb => simpa only [fdStep, hla, hlb] using h
  | destroy o =>
    cases hlk : alookup o s.objs with
    | none => simpa only [fdStep, hlk] using h
    | some cur =>
      simpa only [fdStep, hlk, reset_core_introduced] using h

theorem introduced_nonneg_run {s : FdState}
    (h : ∀ f ∈ s.introduced, (0 : Int) ≤ f) (ops : List FdOp) :
    ∀ f ∈ (fdRun s ops).introduced, (0 : Int) ≤ f := by
  induction ops generalizing s with
  | nil => exact h
  | cons op rest ih => exact ih (introduced_nonneg_step h op)

/-- `reset(-1)` performed right after `release()` closes nothing: the
release leaves `fd_ = -1` and `reset` early-returns when the stored value
already equals its argument. -/
theorem reset_after_release_closes_nothing (s : FdState) (o : Nat) :
    (fdStep (fdStep s (.release o)) (.reset o (-1))).closes =
      (fdStep s (.release o)).closes := by
  cases hlk : alookup o s.objs with
  | none => simp [fdStep, hlk]
  | some v =>
    have hself : alookup o (aset o (-1) s.objs) = some (-1) :=
      aset_lookup_self o (-1) s.objs
    by_cases hv : 0 ≤ v <;>
      simp [fdStep, hlk, hv, hself, reset_core, introduce]

/-- A sample trace: adopt descriptor 3, move it to a second object, reset
that object to descriptor 4 (closing 3), destroy both objects (closing
4). -/
def fdDemoTrace : List FdOp :=
  [.adopt 0 3, .moveCtor 1 0, .reset 1 4, .destroy 1, .destroy 0]

/-- C2 (amended): for every finite well-formed `unique_fd` operation
sequence (adopted descriptors are fresh) after which no object remains
alive, each adopted descriptor that was never handed back by `release()`
is closed exactly once, a released descriptor is closed zero times, and a
`reset(-1)` performed right after a `release()` closes nothing.  (The
unamended claim asserted exactly one close for *every* adopted
descriptor; a released descriptor is closed zero times — see the
counterexample.) -/
theorem C2_unique_fd_close_once (ops : List FdOp)
    (hwf : wfTrace fdInit ops = true)
    (hdone : (fdRun fdInit ops).objs = []) :
    (∀ f ∈ (fdRun fdInit ops).introduced,
      closeCount (fdRun fdInit ops) f =
        if f ∈ (fdRun fdInit ops).escaped then 0 else 1) ∧
    (∀ (t : FdState) (o : Nat),
      (fdStep (fdStep t (.release o)) (.reset o (-1))).closes =
        (fdStep t (.release o)).closes) := by
  refine ⟨?_, fun t o => reset_after_release_closes_nothing t o⟩
  intro f hf
  have hfin := fd_inv_run fd_inv_init ops hwf
  obtain ⟨_, _, _, _, h5⟩ := hfin
  have hf0 : (0 : Int) ≤ f :=
    introduced_nonneg_run (by simp [fdInit]) ops f hf
  have hc := h5 f hf0 hf
  have hown : owners (fdRun fdInit ops) f = 0 := by
    simp [owners, hdone, icount]
  by_cases he : f ∈ (fdRun fdInit ops).escaped
  · rw [if_pos he]
    exact ((hc.1) he).2
  · rw [if_neg he]
    have := hc.2 he
    omega

theorem C2_witness :
    closeCount (fdRun fdInit fdDemoTrace) 3 =
      (if (3 : Int) ∈ (fdRun fdInit fdDemoTrace).escaped then 0 else 1) ∧
    (fdStep (fdStep fdInit (.release 0)) (.reset 0 (-1))).closes =
      (fdStep fdInit (.release 0)).closes :=
  ⟨(C2_unique_fd_close_once fdDemoTrace (by decide) (by decide)).1 3
      (by decide),
    (C2_unique_fd_close_once fdDemoTrace (by decide) (by decide)).2
      fdInit 0⟩

/-- C2 counterexample: the trace adopt-release-destroy adopts descriptor
5, every object is destroyed, the trace is well-formed, yet descriptor 5
is closed zero times (the caller took it over via `release()`), not
exactly once. -/
theorem C2_counterexample :
    wfTrace fdInit [.adopt 0 5, .release 0, .destroy 0] = true ∧
    (fdRun fdInit [.adopt 0 5, .release 0, .destroy 0]).objs = [] ∧
    (5 : Int) ∈ (fdRun fdInit [.adopt 0 5, .release 0, .destroy 0]).introduced ∧
    closeCount (fdRun fdInit [.adopt 0 5, .release 0, .destroy 0]) 5 = 0 := by
  decide

/-! ## Endpoint parsing (`src/src/runtime/resolver.cpp`)

`parse_ipv4_endpoint` and `format_endpoint`, over `List Char`. -/

/-- `simplenet::runtime::endpoint` (resolver.hpp): host text plus port. -/
structure endpoint where
  host : List Char
  port : Nat
deriving DecidableEq, Repr

/-- `std::string_view::rfind(ch)`: index of the last occurrence. -/
def rfind (c : Char) : List Char → Option Nat
  | [] => none
  | x :: rest =>
    match rfind c rest with
    | some i => some (i + 1)
    | none => if x = c then some 0 else none

/-- The port-parsing loop of `parse_ipv4_endpoint` (resolver.cpp lines
177-186): reject a non-decimal character, accumulate base-10, reject as
soon as the value exceeds 65535. -/
def parse_port : List Char → Nat → Option Nat
  | [], port => some port
  | ch :: rest, port =>
    if ch < '0' ∨ '9' < ch then none
    else
      let port' := port * 10 + (ch.toNat - '0'.toNat)
      if 65535 < port' then none
      else parse_port rest port'

/-- Modelled from the spec: the libc `inet_pton(AF_INET)` dotted-quad
parser that `parse_ipv4_endpoint` calls — libc is outside this
repository's sources.  The classic algorithm: exactly four dot-separated
decimal octets, each 0..255, no leading zeros, nothing else.  `octets`
counts started octets, `cur` is the running value of the octet being
read (`none` before its first digit). -/
def pton4_go : List Char → Nat → Option Nat → Bool
  | [], octets, _ => decide (octets = 4)
  | ch :: rest, octets, cur =>
    if '0' ≤ ch ∧ ch ≤ '9' then
      let d := ch.toNat - '0'.toNat
      match cur with
      | none =>
        if 4 < octets + 1 then false
        else pton4_go rest (octets + 1) (some d)
      | some v =>
        if v = 0 then false
        else if 255 < v * 10 + d then false
        else pton4_go rest octets (some (v * 10 + d))
    else if ch = '.' ∧ cur.isSome then
      if octets = 4 then false
      else pton4_go rest octets none
    else false

/-- Modelled from the spec: `inet_pton(AF_INET, host, ...) == 1`. -/
def inet_pton4 (value : List Char) : Bool := pton4_go value 0 none

/-- `parse_ipv4_endpoint` (resolver.cpp lines 167-194). -/
def parse_ipv4_endpoint (value : List Char) : Except Nat endpoint :=
  match rfind ':' value with
  | none => .error EINVAL
  | some separator =>
    if separator = 0 ∨ value.length ≤ separator + 1 then .error EINVAL
    else
      let host := value.take separator
      let port_text := value.drop (separator + 1)
      match parse_port port_text 0 with
      | none => .error EINVAL
      | some port =>
        if inet_pton4 host then .ok ⟨host, port⟩ else .error EINVAL

/-- `format_endpoint` (resolver.cpp lines 196-198):
`host + ":" + std::to_string(port)`. -/
def format_endpoint (e : endpoint) : List Char :=
  e.host ++ ':' :: Nat.toDigits 10 e.port

theorem rfind_eq_none {c : Char} {l : List Char} (h : c ∉ l) :
    rfind c l = none := by
  induction l with
  | nil => rfl
  | cons x rest ih =>
    simp at h
    simp [rfind, ih h.2, Ne.symm h.1]

theorem rfind_lt {c : Char} {l : List Char} {i : Nat}
    (h : rfind c l = some i) : i < l.length := by
  induction l generalizing i with
  | nil => simp [rfind] at h
  | cons x rest ih =>
    simp only [rfind] at h
    cases hr : rfind c rest with
    | some j =>
      simp only [hr] at h
      injection h with h
      have := ih hr
      simp
      omega
    | none =>
      simp only [hr] at h
      by_cases hxc : x = c
      · rw [if_pos hxc] at h
        injection h with h
        subst h
        simp
      · rw [if_neg hxc] at h
        exact absurd h (by simp)

/-- Running value of the base-10 accumulation. -/
def portFold : List Char → Nat → Nat
  | [], acc => acc
  | ch :: rest, acc => portFold rest (acc * 10 + (ch.toNat - '0'.toNat))

theorem portFold_mono (acc : Nat) (l : List Char) :
    acc ≤ portFold l acc := by
  induction l generalizing acc with
  | nil => simp [portFold]
  | cons ch rest ih =>
    refine le_trans ?_ (ih (acc * 10 + (ch.toNat - '0'.toNat)))
    omega

theorem parse_port_all_digits {l : List Char} {acc : Nat}
    (hacc : acc ≤ 65535)
    (hdig : ∀ ch ∈ l, ¬(ch < '0' ∨ '9' < ch)) :
    parse_port l acc =
      if portFold l acc ≤ 65535 then some (portFold l acc) else none := by
  induction l generalizing acc with
  | nil =>
    simp only [parse_port, portFold]
    rw [if_pos hacc]
  | cons ch rest ih =>
    have hnd := hdig ch (by simp)
    simp only [parse_port, portFold, if_neg hnd]
    by_cases hbig : 65535 < acc * 10 + (ch.toNat - '0'.toNat)
    · rw [if_pos hbig]
      have hmono := portFold_mono (acc * 10 + (ch.toNat - '0'.toNat)) rest
      rw [if_neg (by omega)]
    · rw [if_neg hbig]
      exact ih (by omega) (fun c hc => hdig c (by simp [hc]))

theorem parse_port_nondigit {l : List Char} {acc : Nat}
    (h : ∃ ch ∈ l, ch < '0' ∨ '9' < ch) :
    parse_port l acc = none := by
  induction l generalizing acc with
  | nil => simp at h
  | cons c rest ih =>
    obtain ⟨ch, hmem, hch⟩ := h
    rcases List.mem_cons.mp hmem with hmem | hmem
    · subst hmem
      simp [parse_port, hch]
    · simp only [parse_port]
      split
      · rfl
      · split
        · rfl
        · exact ih ⟨ch, hmem, hch⟩

theorem parse_no_colon {value : List Char} (h : ':' ∉ value) :
    parse_ipv4_endpoint value = .error EINVAL := by
  simp [parse_ipv4_endpoint, rfind_eq_none h]

theorem parse_empty_half {value : List Char} {sep : Nat}
    (hsep : rfind ':' value = some sep)
    (h : value.take sep = [] ∨ value.drop (sep + 1) = []) :
    parse_ipv4_endpoint value = .error EINVAL := by
  have hlt := rfind_lt hsep
  have hcond : sep = 0 ∨ value.length ≤ sep + 1 := by
    rcases h with h | h
    · left
      have htl := congrArg List.length h
      rw [List.length_take] at htl
      simp only [List.length_nil] at htl
      omega
    · right
      have hdl := congrArg List.length h
      rw [List.length_drop] at hdl
      simp only [List.length_nil] at hdl
      omega
  simp only [parse_ipv4_endpoint, hsep]
  rw [if_pos hcond]

theorem parse_bad_port {value : List Char} {sep : Nat}
    (hsep : rfind ':' value = some sep)
    (h : (∃ ch ∈ value.drop (sep + 1), ch < '0' ∨ '9' < ch) ∨
      ((∀ ch ∈ value.drop (sep + 1), ¬(ch < '0' ∨ '9' < ch)) ∧
        65535 < portFold (value.drop (sep + 1)) 0)) :
    parse_ipv4_endpoint value = .error EINVAL := by
  simp only [parse_ipv4_endpoint, hsep]
  split
  · rfl
  · have hpp : parse_port (value.drop (sep + 1)) 0 = none := by
      rcases h with h | ⟨hdig, hbig⟩
      · exact parse_port_nondigit h
      · rw [parse_port_all_digits (by omega) hdig]
        rw [if_neg (by omega)]
    simp only [hpp]

theorem parse_bad_host {value : List Char} {sep : Nat}
    (hsep : rfind ':' value = some sep)
    (hbad : inet_pton4 (value.take sep) = false) :
    parse_ipv4_endpoint value = .error EINVAL := by
  simp only [parse_ipv4_endpoint, hsep]
  split
  · rfl
  · cases hpp : parse_port (value.drop (sep + 1)) 0 with
    | none => simp [hpp]
    | some port => simp [hpp, hbad]

/-- C8: `parse_ipv4_endpoint` returns `EINVAL` on a missing colon, an
empty host or port half, a port with a non-decimal character or value
above 65535, or a host the dotted-quad parser rejects; it parses
`"127.0.0.1:8080"` into host `"127.0.0.1"` and port 8080,
`format_endpoint` maps that endpoint back, and `"127.0.0.1"`,
`"bad-ip:80"`, `"127.0.0.1:70000"` are rejected. -/
theorem C8_parse_ipv4_endpoint :
    (∀ value : List Char, ':' ∉ value →
      parse_ipv4_endpoint value = .error EINVAL) ∧
    (∀ (value : List Char) (sep : Nat), rfind ':' value = some sep →
      value.take sep = [] ∨ value.drop (sep + 1) = [] →
      parse_ipv4_endpoint value = .error EINVAL) ∧
    (∀ (value : List Char) (sep : Nat), rfind ':' value = some sep →
      (∃ ch ∈ value.drop (sep + 1), ch < '0' ∨ '9' < ch) ∨
        ((∀ ch ∈ value.drop (sep + 1), ¬(ch < '0' ∨ '9' < ch)) ∧
          65535 < portFold (value.drop (sep + 1)) 0) →
      parse_ipv4_endpoint value = .error EINVAL) ∧
    (∀ (value : List Char) (sep : Nat), rfind ':' value = some sep →
      inet_pton4 (value.take sep) = false →
      parse_ipv4_endpoint value = .error EINVAL) ∧
    parse_ipv4_endpoint "127.0.0.1:8080".data =
      .ok ⟨"127.0.0.1".data, 8080⟩ ∧
    format_endpoint ⟨"127.0.0.1".data, 8080⟩ = "127.0.0.1:8080".data ∧
    parse_ipv4_endpoint "127.0.0.1".data = .error EINVAL ∧
    parse_ipv4_endpoint "bad-ip:80".data = .error EINVAL ∧
    parse_ipv4_endpoint "127.0.0.1:70000".data = .error EINVAL :=
  ⟨fun _ h => parse_no_colon h,
    fun _ _ hsep h => parse_empty_half hsep h,
    fun _ _ hsep h => parse_bad_port hsep h,
    fun _ _ hsep h => parse_bad_host hsep h,
    by rfl, by rfl, by rfl, by rfl, by rfl⟩

theorem C8_witness :
    parse_ipv4_endpoint "noport".data = .error EINVAL ∧
    parse_ipv4_endpoint ":80".data = .error EINVAL ∧
    parse_ipv4_endpoint "1.2.3.4:9x".data = .error EINVAL ∧
    parse_ipv4_endpoint "1.2.3.4:99999".data = .error EINVAL ∧
    parse_ipv4_endpoint "nothost:80".data = .error EINVAL :=
  ⟨C8_parse_ipv4_endpoint.1 "noport".data (by decide),
    C8_parse_ipv4_endpoint.2.1 ":80".data 0 (by decide) (by decide),
    C8_parse_ipv4_endpoint.2.2.1 "1.2.3.4:9x".data 7 (by decide) (by decide),
    C8_parse_ipv4_endpoint.2.2.1 "1.2.3.4:99999".data 7 (by decide)
      (by decide),
    C8_parse_ipv4_endpoint.2.2.2.1 "nothost:80".data 7 (by decide)
      (by decide)⟩

/-! ## epoll event loop (`src/src/runtime/event_loop.cpp`)

Coroutine handles are embedded as their addresses (`handle_key`), 0
standing for the null handle.  Time points are `Int` (steady-clock).
Reactor calls are routed through an environment `env : reactor_op →
Except Nat Unit` modelling `epoll_ctl` outcomes, and the ops issued are
collected so that "no reactor interaction" is expressible. -/

namespace epollLoop

def EPOLLIN : Nat := 1
def EPOLLOUT : Nat := 4
def EPOLLERR : Nat := 8
def EPOLLHUP : Nat := 16
def EPOLLRDHUP : Nat := 8192
def EPOLLET : Nat := 2147483648

/-- `kCommonFlags` (event_loop.cpp lines 16-17). -/
def kCommonFlags : Nat := EPOLLET ||| EPOLLERR ||| EPOLLHUP ||| EPOLLRDHUP

/-- `event_loop::wait_registration` (event_loop.hpp lines 83-87). -/
structure wait_registration where
  handle : Nat
  deadline : Option Int
  timeout_error : Nat
deriving DecidableEq, Repr

def wait_registration.empty : wait_registration := ⟨0, none, ETIMEDOUT⟩

/-- `event_loop::waiter_slot` (event_loop.hpp lines 89-93). -/
structure waiter_slot where
  readable : wait_registration
  writable : wait_registration
  registered_mask : Nat
deriving DecidableEq, Repr

def waiter_slot.empty : waiter_slot :=
  ⟨wait_registration.empty, wait_registration.empty, 0⟩

/-- The scheduler state of `event_loop` relevant to arming and expiry. -/
structure LoopState where
  valid : Bool
  waiters : List (Int × waiter_slot)
  wait_results : List (Nat × Except Nat Unit)
  ready_queue : List Nat
  pending_waiter_count : Nat
  timed_waiter_count : Nat
  next_deadline : Option Int
  deadline_index_dirty : Bool
  active_task_count : Nat
  loop_error : Option Nat
  stop_requested : Bool
deriving DecidableEq, Repr

/-- An `epoll_ctl` interaction performed through the reactor. -/
inductive reactor_op
  | add (fd : Int) (mask : Nat)
  | remove (fd : Int)
  | modify (fd : Int) (mask : Nat)
deriving DecidableEq, Repr

/-- The `desired_mask` local computed at the top of
`event_loop::refresh_interest` (event_loop.cpp lines 265-278) from which
sides are armed. -/
def desired_mask_of (slot : waiter_slot) : Nat :=
  if slot.readable.handle != 0 || slot.writable.handle != 0 then
    (kCommonFlags ||| (if slot.readable.handle != 0 then EPOLLIN else 0)) |||
      (if slot.writable.handle != 0 then EPOLLOUT else 0)
  else 0

/-- `event_loop::refresh_interest` (event_loop.cpp lines 264-306):
add/remove/modify the epoll registration to match the desired mask.
Returns the result, the updated slot and the reactor ops issued. -/
def refresh_interest (env : reactor_op → Except Nat Unit) (fd : Int)
    (slot : waiter_slot) : Except Nat Unit × waiter_slot × List reactor_op :=
  if slot.registered_mask = desired_mask_of slot then (.ok (), slot, [])
  else if slot.registered_mask = 0 ∧ desired_mask_of slot ≠ 0 then
    match env (.add fd (desired_mask_of slot)) with
    | .ok _ =>
      (.ok (), { slot with registered_mask := desired_mask_of slot },
        [.add fd (desired_mask_of slot)])
    | .error e => (.error e, slot, [.add fd (desired_mask_of slot)])
  else if slot.registered_mask ≠ 0 ∧ desired_mask_of slot = 0 then
    match env (.remove fd) with
    | .ok _ => (.ok (), { slot with registered_mask := 0 }, [.remove fd])
    | .error e => (.error e, slot, [.remove fd])
  else
    match env (.modify fd (desired_mask_of slot)) with
    | .ok _ =>
      (.ok (), { slot with registered_mask := desired_mask_of slot },
        [.modify fd (desired_mask_of slot)])
    | .error e => (.error e, slot, [.modify fd (desired_mask_of slot)])

/-- The registration path of `event_loop::arm_waiter` (event_loop.cpp
lines 225-262): `try_emplace` the slot, refuse `EBUSY` when the side is
already armed, fill the registration, bump the timed/pending counters and
the deadline index, then `refresh_interest` — rolling everything back if
that fails. -/
def arm_register (env : reactor_op → Except Nat Unit) (s : LoopState)
    (fd : Int) (handle : Nat) (readable : Bool) (timeout : Option Int)
    (t_error : Nat) (now : Int) :
    Except Nat Unit × LoopState × List reactor_op :=
  let waiters1 :=
    match alookup fd s.waiters with
    | some _ => s.waiters
    | none => s.waiters ++ [(fd, waiter_slot.empty)]
  let slot := (alookup fd waiters1).getD waiter_slot.empty
  let target := if readable then slot.readable else slot.writable
  if target.handle ≠ 0 then (.error EBUSY, { s with waiters := waiters1 }, [])
  else
    let deadline : Option Int := timeout.map (fun t => now + t)
    let reg : wait_registration := ⟨handle, deadline, t_error⟩
    let timed1 :=
      if timeout.isSome then s.timed_waiter_count + 1
      else s.timed_waiter_count
    let nd1 : Option Int :=
      match deadline, s.next_deadline with
      | some d, some cur => if d < cur then some d else some cur
      | some d, none => some d
      | none, cur => cur
    let slot1 :=
      if readable then { slot with readable := reg }
      else { slot with writable := reg }
    match refresh_interest env fd slot1 with
    | (.ok _, slot2, ops) =>
      (.ok (),
        { s with waiters := aset fd slot2 waiters1
                 timed_waiter_count := timed1
                 next_deadline := nd1
                 deadline_index_dirty := true
                 pending_waiter_count := s.pending_waiter_count + 1 },
        ops)
    | (.error e, slot2, ops) =>
      let timed2 := if deadline.isSome then timed1 - 1 else timed1
      let slot3 :=
        if readable then { slot2 with readable := wait_registration.empty }
        else { slot2 with writable := wait_registration.empty }
      let waiters2 :=
        if slot3.readable.handle = 0 ∧ slot3.writable.handle = 0 then
          aerase fd waiters1
        else aset fd slot3 waiters1
      (.error e,
        { s with waiters := waiters2
                 timed_waiter_count := timed2
                 next_deadline := nd1
                 deadline_index_dirty := true
                 pending_waiter_count := s.pending_waiter_count },
        ops)

/-- `event_loop::arm_waiter` (event_loop.cpp lines 206-262).  The claims
concern the early branch (lines 207-223): invalid loop → `EINVAL`, bad
descriptor or null handle → `EBADF`, and a non-positive timeout records
the configured timeout error as the frame's wait result and schedules the
frame at once, with no reactor interaction. -/
def arm_waiter (env : reactor_op → Except Nat Unit) (s : LoopState)
    (fd : Int) (handle : Nat) (readable : Bool) (timeout : Option Int)
    (t_error : Nat) (now : Int) :
    Except Nat Unit × LoopState × List reactor_op :=
  if s.valid = false then (.error EINVAL, s, [])
  else if fd < 0 ∨ handle = 0 then (.error EBADF, s, [])
  else
    match timeout with
    | some t =>
      if t ≤ 0 then
        (.ok (),
          { s with
              wait_results := aset handle (Except.error t_error) s.wait_results
              ready_queue := s.ready_queue ++ [handle] },
          [])
      else arm_register env s fd handle readable (some t) t_error now
    | none => arm_register env s fd handle readable none t_error now

/-- `event_loop::wait_for_readable` (event_loop.cpp lines 175-180). -/
def wait_for_readable (env : reactor_op → Except Nat Unit) (s : LoopState)
    (fd : Int) (handle : Nat) (timeout : Option Int) (t_error : Nat)
    (now : Int) : Except Nat Unit × LoopState × List reactor_op :=
  arm_waiter env s fd handle true timeout t_error now

/-- `event_loop::wait_for_writable` (event_loop.cpp lines 182-187). -/
def wait_for_writable (env : reactor_op → Except Nat Unit) (s : LoopState)
    (fd : Int) (handle : Nat) (timeout : Option Int) (t_error : Nat)
    (now : Int) : Except Nat Unit × LoopState × List reactor_op :=
  arm_waiter env s fd handle false timeout t_error now

/-- One registration's expiry check inside `process_expired_waiters`
(event_loop.cpp lines 330-361, each side): a registration with a handle
and a fired deadline is zeroed and its `(handle, timeout_error)` is
delivered. -/
def expire_reg (now : Int) (reg : wait_registration) :
    wait_registration × Option (Nat × Nat) :=
  match reg.deadline with
  | some d =>
    if reg.handle ≠ 0 ∧ d ≤ now then
      (wait_registration.empty, some (reg.handle, reg.timeout_error))
    else (reg, none)
  | none => (reg, none)

/-- Accumulator for the expiry scan: slots kept so far, the evolving
result map, ready queue and counters, the recomputed earliest deadline
and the reactor ops issued. -/
structure ScanAcc where
  kept : List (Int × waiter_slot)
  wait_results : List (Nat × Except Nat Unit)
  ready_queue : List Nat
  pending : Nat
  timed : Nat
  next_deadline : Option Int
  ops : List reactor_op
deriving Repr

/-- Fold a side's remaining deadline into the accumulator's minimum
(event_loop.cpp lines 373-384). -/
def fold_deadline (nd : Option Int) (reg : wait_registration) : Option Int :=
  if reg.handle ≠ 0 then
    match reg.deadline, nd with
    | some d, some cur => if d < cur then some d else some cur
    | some d, none => some d
    | none, cur => cur
  else nd

/-- Deliver one expired registration into the accumulator (record the
registration's own `timeout_error` as the frame's result, schedule the
frame, decrement both counters). -/
def deliver (acc : ScanAcc) : Option (Nat × Nat) → ScanAcc
  | some (h, e) =>
    { acc with
        wait_results := aset h (Except.error e) acc.wait_results
        ready_queue := acc.ready_queue ++ [h]
        timed := acc.timed - 1
        pending := acc.pending - 1 }
  | none => acc

/-- The slot scan of `event_loop::process_expired_waiters` (event_loop.cpp
lines 326-391): expire both sides, refresh epoll interest when something
changed (aborting the scan with the loop error if that fails, as the C++
`return` does), drop slots with no remaining waiters, and track the
earliest remaining deadline.  Returns the accumulator, the fatal error if
any, and the slots left unvisited on abort. -/
def scan_go (env : reactor_op → Except Nat Unit) (now : Int) :
    List (Int × waiter_slot) → ScanAcc →
    ScanAcc × Option Nat × List (Int × waiter_slot)
  | [], acc => (acc, none, [])
  | (fd, slot) :: rest, acc =>
    let er := expire_reg now slot.readable
    let ew := expire_reg now slot.writable
    let slot1 : waiter_slot := { slot with readable := er.1, writable := ew.1 }
    let acc1 := deliver (deliver acc er.2) ew.2
    if er.2.isSome ∨ ew.2.isSome then
      match refresh_interest env fd slot1 with
      | (.error e, slot2, ops1) =>
        ({ acc1 with kept := acc1.kept ++ [(fd, slot2)]
                     ops := acc1.ops ++ ops1 }, some e, rest)
      | (.ok _, slot2, ops1) =>
        if slot2.readable.handle = 0 ∧ slot2.writable.handle = 0 then
          scan_go env now rest { acc1 with ops := acc1.ops ++ ops1 }
        else
          scan_go env now rest
            { acc1 with
                kept := acc1.kept ++ [(fd, slot2)]
                next_deadline :=
                  fold_deadline (fold_deadline acc1.next_deadline slot2.readable)
                    slot2.writable
                ops := acc1.ops ++ ops1 }
    else
      if slot1.readable.handle = 0 ∧ slot1.writable.handle = 0 then
        scan_go env now rest acc1
      else
        scan_go env now rest
          { acc1 with
              kept := acc1.kept ++ [(fd, slot1)]
              next_deadline :=
                fold_deadline (fold_deadline acc1.next_deadline slot1.readable)
                  slot1.writable }

/-- `event_loop::process_expired_waiters` (event_loop.cpp lines 313-398):
no-op resets when no timed waiter exists, skip when the index is clean
and the stored deadline has not fired, otherwise scan every slot. -/
def process_expired_waiters (env : reactor_op → Except Nat Unit)
    (s : LoopState) (now : Int) : LoopState × List reactor_op :=
  if s.timed_waiter_count = 0 then
    ({ s with next_deadline := none, deadline_index_dirty := false }, [])
  else if s.deadline_index_dirty = false ∧
      (match s.next_deadline with
        | some nd => decide (now < nd)
        | none => false) = true then
    (s, [])
  else
    let start : ScanAcc :=
      ⟨[], s.wait_results, s.ready_queue, s.pending_waiter_count,
        s.timed_waiter_count, none, []⟩
    match scan_go env now s.waiters start with
    | (acc, none, _) =>
      ({ s with waiters := acc.kept
                wait_results := acc.wait_results
                ready_queue := acc.ready_queue
                pending_waiter_count := acc.pending
                timed_waiter_count := acc.timed
                next_deadline := acc.next_deadline
                deadline_index_dirty := false }, acc.ops)
    | (acc, some e, rest) =>
      ({ s with waiters := acc.kept ++ rest
                wait_results := acc.wait_results
                ready_queue := acc.ready_queue
                pending_waiter_count := acc.pending
                timed_waiter_count := acc.timed
                loop_error := some e
                stop_requested := true }, acc.ops)

/-- The idle branch of `event_loop::run` (event_loop.cpp lines 96-103),
reached when the ready queue has drained: exit `ok` when nothing is left,
report `EDEADLK` when tasks remain but nothing is waited on, otherwise
poll the reactor. -/
inductive run_idle_action
  | exit_ok
  | exit_error (e : Nat)
  | poll_reactor
deriving DecidableEq, Repr

def run_idle (s : LoopState) : Option run_idle_action :=
  if s.ready_queue = [] then
    some
      (if s.active_task_count = 0 ∧ s.pending_waiter_count = 0 then
        .exit_ok
      else if s.pending_waiter_count = 0 then .exit_error EDEADLK
      else .poll_reactor)
  else none

end epollLoop

/-! ## io_uring event loop (`src/src/runtime/uring_event_loop.cpp`)

Same embedding conventions as the epoll loop.  Poll submissions go
through `env : uring_op → Except Nat Unit`, which stands for
`queue_poll_add` / `queue_poll_remove` (their internal EBUSY-flush-retry
mechanics are abstracted into the environment's verdict). -/

namespace uringLoop

def POLLIN : Nat := 1
def POLLOUT : Nat := 4
def POLLERR : Nat := 8
def POLLHUP : Nat := 16
def POLLRDHUP : Nat := 8192

/-- `kReadPollMask` / `kWritePollMask` (uring_event_loop.cpp lines 14-17). -/
def kReadPollMask : Nat := POLLIN ||| POLLERR ||| POLLHUP ||| POLLRDHUP

def kWritePollMask : Nat := POLLOUT ||| POLLERR ||| POLLHUP

/-- `uring_event_loop::wait_registration` (part_014 lines 87-92). -/
structure wait_registration where
  handle : Nat
  deadline : Option Int
  timeout_error : Nat
  token : Nat
deriving DecidableEq, Repr

def wait_registration.empty : wait_registration := ⟨0, none, ETIMEDOUT, 0⟩

/-- `uring_event_loop::waiter_slot` (part_014 lines 94-97). -/
structure waiter_slot where
  readable : wait_registration
  writable : wait_registration
deriving DecidableEq, Repr

def waiter_slot.empty : waiter_slot :=
  ⟨wait_registration.empty, wait_registration.empty⟩

/-- `uring_event_loop::poll_context` (part_014 lines 99-102). -/
structure poll_context where
  fd : Int
  readable : Bool
deriving DecidableEq, Repr

/-- A poll submission performed through the uring reactor. -/
inductive uring_op
  | poll_add (token : Nat) (fd : Int) (mask : Nat)
  | poll_remove (token : Nat)
deriving DecidableEq, Repr

/-- The scheduler state of `uring_event_loop` relevant to arming and
expiry. -/
structure LoopState where
  valid : Bool
  waiters : List (Int × waiter_slot)
  inflight_polls : List (Nat × poll_context)
  wait_results : List (Nat × Except Nat Unit)
  ready_queue : List Nat
  pending_waiter_count : Nat
  timed_waiter_count : Nat
  next_deadline : Option Int
  deadline_index_dirty : Bool
  active_task_count : Nat
  next_token : Nat
  loop_error : Option Nat
  stop_requested : Bool
deriving DecidableEq, Repr

/-- `uring_event_loop::allocate_token` (uring_event_loop.cpp lines
518-535): hand out the counter value, skipping 0.  Tokens are `Nat`
here, so the 64-bit wrap-around (and the `inflight_polls_` collision
rescan it necessitates) never fires and is not modelled. -/
def allocate_token (next_token : Nat) : Nat × Nat :=
  let token := if next_token = 0 then 1 else next_token
  (token, token + 1)

/-- The registration path of `uring_event_loop::arm_waiter`
(uring_event_loop.cpp lines 244-290): `try_emplace` the slot, `EBUSY`
when the side is armed, allocate a token, fill the registration, bump
counters and the deadline index, record the in-flight poll and submit
`poll_add` — rolling back if the submission fails. -/
def arm_register (env : uring_op → Except Nat Unit) (s : LoopState)
    (fd : Int) (handle : Nat) (readable : Bool) (timeout : Option Int)
    (t_error : Nat) (now : Int) :
    Except Nat Unit × LoopState × List uring_op :=
  let waiters1 :=
    match alookup fd s.waiters with
    | some _ => s.waiters
    | none => s.waiters ++ [(fd, waiter_slot.empty)]
  let slot := (alookup fd waiters1).getD waiter_slot.empty
  let target := if readable then slot.readable else slot.writable
  if target.handle ≠ 0 then (.error EBUSY, { s with waiters := waiters1 }, [])
  else
    let tk := allocate_token s.next_token
    let deadline : Option Int := timeout.map (fun t => now + t)
    let reg : wait_registration := ⟨handle, deadline, t_error, tk.1⟩
    let timed1 :=
      if timeout.isSome then s.timed_waiter_count + 1
      else s.timed_waiter_count
    let nd1 : Option Int :=
      match deadline, s.next_deadline with
      | some d, some cur => if d < cur then some d else some cur
      | some d, none => some d
      | none, cur => cur
    let slot1 :=
      if readable then { slot with readable := reg }
      else { slot with writable := reg }
    let inflight1 := aset tk.1 (poll_context.mk fd readable) s.inflight_polls
    let mask := if readable then kReadPollMask else kWritePollMask
    match env (.poll_add tk.1 fd mask) with
    | .ok _ =>
      (.ok (),
        { s with waiters := aset fd slot1 waiters1
                 inflight_polls := inflight1
                 timed_waiter_count := timed1
                 next_deadline := nd1
                 deadline_index_dirty := true
                 pending_waiter_count := s.pending_waiter_count + 1
                 next_token := tk.2 },
        [.poll_add tk.1 fd mask])
    | .error e =>
      let slot3 :=
        if readable then { slot1 with readable := wait_registration.empty }
        else { slot1 with writable := wait_registration.empty }
      let waiters2 :=
        if slot3.readable.handle = 0 ∧ slot3.writable.handle = 0 then
          aerase fd waiters1
        else aset fd slot3 waiters1
      (.error e,
        { s with waiters := waiters2
                 inflight_polls := aerase tk.1 inflight1
                 timed_waiter_count :=
                   if deadline.isSome then timed1 - 1 else timed1
                 next_deadline := nd1
                 deadline_index_dirty := true
                 pending_waiter_count := s.pending_waiter_count
                 next_token := tk.2 },
        [.poll_add tk.1 fd mask])

/-- `uring_event_loop::arm_waiter` (uring_event_loop.cpp lines 224-290).
The claims concern the early branch (lines 225-242). -/
def arm_waiter (env : uring_op → Except Nat Unit) (s : LoopState)
    (fd : Int) (handle : Nat) (readable : Bool) (timeout : Option Int)
    (t_error : Nat) (now : Int) :
    Except Nat Unit × LoopState × List uring_op :=
  if s.valid = false then (.error EINVAL, s, [])
  else if fd < 0 ∨ handle = 0 then (.error EBADF, s, [])
  else
    match timeout with
    | some t =>
      if t ≤ 0 then
        (.ok (),
          { s with
              wait_results := aset handle (Except.error t_error) s.wait_results
              ready_queue := s.ready_queue ++ [handle] },
          [])
      else arm_register env s fd handle readable (some t) t_error now
    | none => arm_register env s fd handle readable none t_error now

/-- `uring_event_loop::wait_for_readable` (uring_event_loop.cpp lines
192-198). -/
def wait_for_readable (env : uring_op → Except Nat Unit) (s : LoopState)
    (fd : Int) (handle : Nat) (timeout : Option Int) (t_error : Nat)
    (now : Int) : Except Nat Unit × LoopState × List uring_op :=
  arm_waiter env s fd handle true timeout t_error now

/-- `uring_event_loop::wait_for_writable` (uring_event_loop.cpp lines
200-205). -/
def wait_for_writable (env : uring_op → Except Nat Unit) (s : LoopState)
    (fd : Int) (handle : Nat) (timeout : Option Int) (t_error : Nat)
    (now : Int) : Except Nat Unit × LoopState × List uring_op :=
  arm_waiter env s fd handle false timeout t_error now

/-- One registration's expiry check inside the `expire_registration`
lambda of `process_expired_waiters` (uring_event_loop.cpp lines 368-401):
a registration with a handle and a fired deadline is zeroed and its
`(handle, timeout_error, token)` is delivered. -/
def expire_reg (now : Int) (reg : wait_registration) :
    wait_registration × Option (Nat × Nat × Nat) :=
  match reg.deadline with
  | some d =>
    if reg.handle ≠ 0 ∧ d ≤ now then
      (wait_registration.empty,
        some (reg.handle, reg.timeout_error, reg.token))
    else (reg, none)
  | none => (reg, none)

/-- Accumulator for the uring expiry scan. -/
structure ScanAcc where
  kept : List (Int × waiter_slot)
  inflight : List (Nat × poll_context)
  wait_results : List (Nat × Except Nat Unit)
  ready_queue : List Nat
  pending : Nat
  timed : Nat
  next_deadline : Option Int
  ops : List uring_op
deriving Repr

def fold_deadline (nd : Option Int) (reg : wait_registration) : Option Int :=
  if reg.handle ≠ 0 then
    match reg.deadline, nd with
    | some d, some cur => if d < cur then some d else some cur
    | some d, none => some d
    | none, cur => cur
  else nd

/-- Deliver one expired registration: record its own `timeout_error`,
schedule the frame, decrement the counters, drop the in-flight poll and
submit `poll_remove` (whose failure aborts the scan with the loop
error). -/
def expire_side (env : uring_op → Except Nat Unit) (acc : ScanAcc) :
    Option (Nat × Nat × Nat) → ScanAcc × Option Nat
  | none => (acc, none)
  | some (h, e, tk) =>
    let acc1 :=
      { acc with
          wait_results := aset h (Except.error e) acc.wait_results
          ready_queue := acc.ready_queue ++ [h]
          timed := acc.timed - 1
          pending := acc.pending - 1 }
    if tk ≠ 0 then
      let acc2 :=
        { acc1 with
            inflight := aerase tk acc1.inflight
            ops := acc1.ops ++ [.poll_remove tk] }
      match env (.poll_remove tk) with
      | .ok _ => (acc2, none)
      | .error er => (acc2, some er)
    else (acc1, none)

/-- The slot scan of `uring_event_loop::process_expired_waiters`
(uring_event_loop.cpp lines 365-419): expire the readable then the
writable side (each can abort the scan through a failed `poll_remove`),
drop slots with no remaining waiters, track the earliest remaining
deadline. -/
def scan_go (env : uring_op → Except Nat Unit) (now : Int) :
    List (Int × waiter_slot) → ScanAcc →
    ScanAcc × Option Nat × List (Int × waiter_slot)
  | [], acc => (acc, none, [])
  | (fd, slot) :: rest, acc =>
    let er := expire_reg now slot.readable
    match expire_side env acc er.2 with
    | (acc1, some e) =>
      ({ acc1 with kept := acc1.kept ++ [(fd, { slot with readable := er.1 })] },
        some e, rest)
    | (acc1, none) =>
      let ew := expire_reg now slot.writable
      let slot1 : waiter_slot := { slot with readable := er.1, writable := ew.1 }
      match expire_side env acc1 ew.2 with
      | (acc2, some e) =>
        ({ acc2 with kept := acc2.kept ++ [(fd, slot1)] }, some e, rest)
      | (acc2, none) =>
        if slot1.readable.handle = 0 ∧ slot1.writable.handle = 0 then
          scan_go env now rest acc2
        else
          scan_go env now rest
            { acc2 with
                kept := acc2.kept ++ [(fd, slot1)]
                next_deadline :=
                  fold_deadline (fold_deadline acc2.next_deadline slot1.readable)
                    slot1.writable }

/-- `uring_event_loop::process_expired_waiters` (uring_event_loop.cpp
lines 351-426). -/
def process_expired_waiters (env : uring_op → Except Nat Unit)
    (s : LoopState) (now : Int) : LoopState × List uring_op :=
  if s.timed_waiter_count = 0 then
    ({ s with next_deadline := none, deadline_index_dirty := false }, [])
  else if s.deadline_index_dirty = false ∧
      (match s.next_deadline with
        | some nd => decide (now < nd)
        | none => false) = true then
    (s, [])
  else
    let start : ScanAcc :=
      ⟨[], s.inflight_polls, s.wait_results, s.ready_queue,
        s.pending_waiter_count, s.timed_waiter_count, none, []⟩
    match scan_go env now s.waiters start with
    | (acc, none, _) =>
      ({ s with waiters := acc.kept
                inflight_polls := acc.inflight
                wait_results := acc.wait_results
                ready_queue := acc.ready_queue
                pending_waiter_count := acc.pending
                timed_waiter_count := acc.timed
                next_deadline := acc.next_deadline
                deadline_index_dirty := false }, acc.ops)
    | (acc, some e, rest) =>
      ({ s with waiters := acc.kept ++ rest
                inflight_polls := acc.inflight
                wait_results := acc.wait_results
                ready_queue := acc.ready_queue
                pending_waiter_count := acc.pending
                timed_waiter_count := acc.timed
                loop_error := some e
                stop_requested := true }, acc.ops)

/-- The idle branch of `uring_event_loop::run` (uring_event_loop.cpp
lines 105-112), identical to the epoll loop's. -/
inductive run_idle_action
  | exit_ok
  | exit_error (e : Nat)
  | poll_reactor
deriving DecidableEq, Repr

def run_idle (s : LoopState) : Option run_idle_action :=
  if s.ready_queue = [] then
    some
      (if s.active_task_count = 0 ∧ s.pending_waiter_count = 0 then
        .exit_ok
      else if s.pending_waiter_count = 0 then .exit_error EDEADLK
      else .poll_reactor)
  else none

end uringLoop

namespace epollLoop

theorem arm_waiter_nonpos (env : reactor_op → Except Nat Unit)
    (s : LoopState) (fd : Int) (handle : Nat) (readable : Bool) (t : Int)
    (e : Nat) (now : Int) (hv : s.valid = true) (hfd : 0 ≤ fd)
    (hh : handle ≠ 0) (ht : t ≤ 0) :
    arm_waiter env s fd handle readable (some t) e now =
      (.ok (),
        { s with
            wait_results := aset handle (Except.error e) s.wait_results
            ready_queue := s.ready_queue ++ [handle] },
        []) := by
  have hnv : ¬(s.valid = false) := by simp [hv]
  have hnb : ¬(fd < 0 ∨ handle = 0) := by
    rintro (hlt | h0)
    · omega
    · exact hh h0
  unfold arm_waiter
  rw [if_neg hnv, if_neg hnb]
  simp [ht]

end epollLoop

namespace uringLoop

theorem arm_waiter_nonpos_uring (env : uring_op → Except Nat Unit)
    (s : LoopState) (fd : Int) (handle : Nat) (readable : Bool) (t : Int)
    (e : Nat) (now : Int) (hv : s.valid = true) (hfd : 0 ≤ fd)
    (hh : handle ≠ 0) (ht : t ≤ 0) :
    arm_waiter env s fd handle readable (some t) e now =
      (.ok (),
        { s with
            wait_results := aset handle (Except.error e) s.wait_results
            ready_queue := s.ready_queue ++ [handle] },
        []) := by
  have hnv : ¬(s.valid = false) := by simp [hv]
  have hnb : ¬(fd < 0 ∨ handle = 0) := by
    rintro (hlt | h0)
    · omega
    · exact hh h0
  unfold arm_waiter
  rw [if_neg hnv, if_neg hnb]
  simp [ht]

end uringLoop

/-- C1: on either backend, when the ready queue has drained, no pending
waiters remain, and at least one active root task exists, the idle branch
of `run` exits with the error `EDEADLK`. -/
theorem C1_run_deadlock_detection :
    (∀ s : epollLoop.LoopState, s.ready_queue = [] →
      s.pending_waiter_count = 0 → 0 < s.active_task_count →
      epollLoop.run_idle s =
        some (epollLoop.run_idle_action.exit_error EDEADLK)) ∧
    (∀ s : uringLoop.LoopState, s.ready_queue = [] →
      s.pending_waiter_count = 0 → 0 < s.active_task_count →
      uringLoop.run_idle s =
        some (uringLoop.run_idle_action.exit_error EDEADLK)) := by
  refine ⟨fun s hq hp ha => ?_, fun s hq hp ha => ?_⟩
  · unfold epollLoop.run_idle
    rw [if_pos hq, if_neg (by omega), if_pos hp]
  · unfold uringLoop.run_idle
    rw [if_pos hq, if_neg (by omega), if_pos hp]

/-- A loop state with one active root task, nothing ready, nothing
waited on. -/
def epollIdleDemo : epollLoop.LoopState :=
  ⟨true, [], [], [], 0, 0, none, false, 1, none, false⟩

def uringIdleDemo : uringLoop.LoopState :=
  ⟨true, [], [], [], [], 0, 0, none, false, 1, 1, none, false⟩

theorem C1_witness :
    epollLoop.run_idle epollIdleDemo =
      some (epollLoop.run_idle_action.exit_error EDEADLK) ∧
    uringLoop.run_idle uringIdleDemo =
      some (uringLoop.run_idle_action.exit_error EDEADLK) :=
  ⟨C1_run_deadlock_detection.1 epollIdleDemo rfl rfl (by decide),
    C1_run_deadlock_detection.2 uringIdleDemo rfl rfl (by decide)⟩

/-- C6: on either backend, a `wait_for_readable` or `wait_for_writable`
call with a specified timeout ≤ 0 records the timeout error supplied at
arming as the frame's wait result, schedules the frame, and returns `ok`,
issuing no reactor operation; the waiter slot map and both waiter
counters are unchanged (the returned state differs from the input only in
`wait_results` and `ready_queue`). -/
theorem C6_nonpositive_timeout_immediate :
    (∀ (env : epollLoop.reactor_op → Except Nat Unit)
        (s : epollLoop.LoopState) (fd : Int) (handle : Nat) (t : Int)
        (e : Nat) (now : Int), s.valid = true → 0 ≤ fd → handle ≠ 0 →
      t ≤ 0 →
      epollLoop.wait_for_readable env s fd handle (some t) e now =
        (.ok (),
          { s with
              wait_results := aset handle (Except.error e) s.wait_results
              ready_queue := s.ready_queue ++ [handle] }, []) ∧
      epollLoop.wait_for_writable env s fd handle (some t) e now =
        (.ok (),
          { s with
              wait_results := aset handle (Except.error e) s.wait_results
              ready_queue := s.ready_queue ++ [handle] }, [])) ∧
    (∀ (env : uringLoop.uring_op → Except Nat Unit)
        (s : uringLoop.LoopState) (fd : Int) (handle : Nat) (t : Int)
        (e : Nat) (now : Int), s.valid = true → 0 ≤ fd → handle ≠ 0 →
      t ≤ 0 →
      uringLoop.wait_for_readable env s fd handle (some t) e now =
        (.ok (),
          { s with
              wait_results := aset handle (Except.error e) s.wait_results
              ready_queue := s.ready_queue ++ [handle] }, []) ∧
      uringLoop.wait_for_writable env s fd handle (some t) e now =
        (.ok (),
          { s with
              wait_results := aset handle (Except.error e) s.wait_results
              ready_queue := s.ready_queue ++ [handle] }, [])) :=
  ⟨fun env s fd h t e now hv hfd hh ht =>
      ⟨epollLoop.arm_waiter_nonpos env s fd h true t e now hv hfd hh ht,
        epollLoop.arm_waiter_nonpos env s fd h false t e now hv hfd hh ht⟩,
    fun env s fd h t e now hv hfd hh ht =>
      ⟨uringLoop.arm_waiter_nonpos_uring env s fd h true t e now hv hfd hh ht,
        uringLoop.arm_waiter_nonpos_uring env s fd h false t e now hv hfd hh ht⟩⟩

theorem C6_witness :
    epollLoop.wait_for_readable (fun _ => .ok ()) epollIdleDemo 3 7
        (some 0) ETIMEDOUT 100 =
      (.ok (),
        { epollIdleDemo with
            wait_results :=
              aset 7 (Except.error ETIMEDOUT) epollIdleDemo.wait_results
            ready_queue := epollIdleDemo.ready_queue ++ [7] }, []) ∧
    uringLoop.wait_for_writable (fun _ => .ok ()) uringIdleDemo 3 7
        (some (-5)) ETIMEDOUT 100 =
      (.ok (),
        { uringIdleDemo with
            wait_results :=
              aset 7 (Except.error ETIMEDOUT) uringIdleDemo.wait_results
            ready_queue := uringIdleDemo.ready_queue ++ [7] }, []) :=
  ⟨(C6_nonpositive_timeout_immediate.1 (fun _ => .ok ()) epollIdleDemo 3 7 0
      ETIMEDOUT 100 rfl (by decide) (by decide) (by decide)).1,
    (C6_nonpositive_timeout_immediate.2 (fun _ => .ok ()) uringIdleDemo 3 7
      (-5) ETIMEDOUT 100 rfl (by decide) (by decide) (by decide)).2⟩

/-! ### Generic facts about the result-map folds used by both expiry
scans. -/

theorem alookup_foldl_aset_notmem {β : Type} {pairs : List (Nat × β)}
    {h : Nat} (hnm : h ∉ pairs.map Prod.fst)
    (m : List (Nat × Except Nat Unit)) (upd : β → Except Nat Unit) :
    alookup h (pairs.foldl (fun acc p => aset p.1 (upd p.2) acc) m) =
      alookup h m := by
  induction pairs generalizing m with
  | nil => rfl
  | cons p rest ih =>
    have h1 : h ≠ p.1 := fun hh => hnm (by simp [hh])
    have h2 : h ∉ rest.map Prod.fst := fun hh => hnm (by simp [hh])
    rw [List.foldl_cons, ih h2]
    exact aset_lookup_ne h1 _ m

theorem alookup_foldl_aset_mem {β : Type} {pairs : List (Nat × β)}
    {h : Nat} {e : β} (hmem : (h, e) ∈ pairs)
    (hnd : (pairs.map Prod.fst).Nodup) (m : List (Nat × Except Nat Unit))
    (upd : β → Except Nat Unit) :
    alookup h (pairs.foldl (fun acc p => aset p.1 (upd p.2) acc) m) =
      some (upd e) := by
  induction pairs generalizing m with
  | nil => simp at hmem
  | cons p rest ih =>
    have hc := List.nodup_cons.mp
      (show (p.1 :: rest.map Prod.fst).Nodup from hnd)
    rcases List.mem_cons.mp hmem with hmem | hmem
    · subst hmem
      rw [List.foldl_cons, alookup_foldl_aset_notmem hc.1 _ upd]
      exact aset_lookup_self _ _ m
    · rw [List.foldl_cons]
      exact ih hmem hc.2 _

namespace epollLoop

/-- All registrations of a waiter map, readable side first per slot, in
iteration order — the order in which the scan examines them. -/
def regs (ws : List (Int × waiter_slot)) : List wait_registration :=
  ws.bind (fun p => [p.2.readable, p.2.writable])

/-- The `(handle, timeout_error)` pairs delivered at time `now`: exactly
the registrations with a handle whose deadline has fired. -/
def expiredOf (now : Int) (rs : List wait_registration) : List (Nat × Nat) :=
  rs.filterMap (fun r => (expire_reg now r).2)

/-- Handles of armed registrations (used to state handle uniqueness). -/
def nonzeroHandles (rs : List wait_registration) : List Nat :=
  (rs.filter (fun r => r.handle != 0)).map wait_registration.handle

theorem refresh_ok {env : reactor_op → Except Nat Unit}
    (henv : ∀ op, env op = .ok ()) (fd : Int) (slot : waiter_slot) :
    ∃ slot2 ops, refresh_interest env fd slot = (.ok (), slot2, ops) := by
  unfold refresh_interest
  by_cases h1 : slot.registered_mask = desired_mask_of slot
  · rw [if_pos h1]
    exact ⟨slot, [], rfl⟩
  · rw [if_neg h1]
    by_cases h2 : slot.registered_mask = 0 ∧ desired_mask_of slot ≠ 0
    · rw [if_pos h2, henv]
      exact ⟨_, _, rfl⟩
    · rw [if_neg h2]
      by_cases h3 : slot.registered_mask ≠ 0 ∧ desired_mask_of slot = 0
      · rw [if_pos h3, henv]
        exact ⟨_, _, rfl⟩
      · rw [if_neg h3, henv]
        exact ⟨_, _, rfl⟩

theorem scan_go_spec {env : reactor_op → Except Nat Unit}
    (henv : ∀ op, env op = .ok ()) (now : Int)
    (ws : List (Int × waiter_slot)) (acc : ScanAcc) :
    ∃ acc', scan_go env now ws acc = (acc', none, []) ∧
      acc'.ready_queue =
        acc.ready_queue ++ (expiredOf now (regs ws)).map Prod.fst ∧
      acc'.wait_results =
        (expiredOf now (regs ws)).foldl
          (fun m p => aset p.1 (Except.error p.2) m) acc.wait_results := by
  induction ws generalizing acc with
  | nil => exact ⟨acc, rfl, by simp [regs, expiredOf], by simp [regs, expiredOf]⟩
  | cons p rest ih =>
    obtain ⟨fd, slot⟩ := p
    have hregs : regs ((fd, slot) :: rest) =
        slot.readable :: slot.writable :: regs rest := by
      simp [regs]
    rw [hregs]
    simp only [scan_go]
    cases her : (expire_reg now slot.readable).2 with
    | none =>
      cases hew : (expire_reg now slot.writable).2 with
      | none =>
        have hexp : expiredOf now
            (slot.readable :: slot.writable :: regs rest) =
            expiredOf now (regs rest) := by
          simp [expiredOf, List.filterMap_cons, her, hew]
        rw [hexp]
        simp only [her, hew, deliver]
        rw [if_neg (by simp [her, hew])]
        split
        · exact ih acc
        · obtain ⟨acc', heq, hq, hw⟩ := ih
            { acc with
                kept := acc.kept ++ [(fd, { slot with
                  readable := (expire_reg now slot.readable).1,
                  writable := (expire_reg now slot.writable).1 })]
                next_deadline := fold_deadline
                  (fold_deadline acc.next_deadline
                    (expire_reg now slot.readable).1)
                  (expire_reg now slot.writable).1 }
          exact ⟨acc', heq, by simpa using hq, by simpa using hw⟩
      | some pw =>
        obtain ⟨hw, ew⟩ := pw
        have hexp : expiredOf now
            (slot.readable :: slot.writable :: regs rest) =
            (hw, ew) :: expiredOf now (regs rest) := by
          simp [expiredOf, List.filterMap_cons, her, hew]
        rw [hexp]
        simp only [her, hew, deliver]
        rw [if_pos (by simp [her, hew])]
        obtain ⟨slot2, ops1, hrefresh⟩ := refresh_ok henv fd
          { slot with readable := (expire_reg now slot.readable).1,
                      writable := (expire_reg now slot.writable).1 }
        simp only [hrefresh]
        split
        · obtain ⟨acc', heq, hq, hw'⟩ := ih
            { acc with
                wait_results := aset hw (Except.error ew) acc.wait_results
                ready_queue := acc.ready_queue ++ [hw]
                timed := acc.timed - 1
                pending := acc.pending - 1
                ops := acc.ops ++ ops1 }
          exact ⟨acc', heq, by simpa using hq, by simpa using hw'⟩
        · obtain ⟨acc', heq, hq, hw'⟩ := ih
            { acc with
                kept := acc.kept ++ [(fd, slot2)]
                wait_results := aset hw (Except.error ew) acc.wait_results
                ready_queue := acc.ready_queue ++ [hw]
                timed := acc.timed - 1
                pending := acc.pending - 1
                next_deadline := fold_deadline
                  (fold_deadline acc.next_deadline slot2.readable)
                  slot2.writable
                ops := acc.ops ++ ops1 }
          exact ⟨acc', heq, by simpa using hq, by simpa using hw'⟩
    | some pr =>
      obtain ⟨hr, er⟩ := pr
      cases hew : (expire_reg now slot.writable).2 with
      | none =>
        have hexp : expiredOf now
            (slot.readable :: slot.writable :: regs rest) =
            (hr, er) :: expiredOf now (regs rest) := by
          simp [expiredOf, List.filterMap_cons, her, hew]
        rw [hexp]
        simp only [her, hew, deliver]
        rw [if_pos (by simp [her, hew])]
        obtain ⟨slot2, ops1, hrefresh⟩ := refresh_ok henv fd
          { slot with readable := (expire_reg now slot.readable).1,
                      writable := (expire_reg now slot.writable).1 }
        simp only [hrefresh]
        split
        · obtain ⟨acc', heq, hq, hw'⟩ := ih
            { acc with
                wait_results := aset hr (Except.error er) acc.wait_results
                ready_queue := acc.ready_queue ++ [hr]
                timed := acc.timed - 1
                pending := acc.pending - 1
                ops := acc.ops ++ ops1 }
          exact ⟨acc', heq, by simpa using hq, by simpa using hw'⟩
        · obtain ⟨acc', heq, hq, hw'⟩ := ih
            { acc with
                kept := acc.kept ++ [(fd, slot2)]
                wait_results := aset hr (Except.error er) acc.wait_results
                ready_queue := acc.ready_queue ++ [hr]
                timed := acc.timed - 1
                pending := acc.pending - 1
                next_deadline := fold_deadline
                  (fold_deadline acc.next_deadline slot2.readable)
                  slot2.writable
                ops := acc.ops ++ ops1 }
          exact ⟨acc', heq, by simpa using hq, by simpa using hw'⟩
      | some pw =>
        obtain ⟨hw, ew⟩ := pw
        have hexp : expiredOf now
            (slot.readable :: slot.writable :: regs rest) =
            (hr, er) :: (hw, ew) :: expiredOf now (regs rest) := by
          simp [expiredOf, List.filterMap_cons, her, hew]
        rw [hexp]
        simp only [her, hew, deliver]
        rw [if_pos (by simp [her, hew])]
        obtain ⟨slot2, ops1, hrefresh⟩ := refresh_ok henv fd
          { slot with readable := (expire_reg now slot.readable).1,
                      writable := (expire_reg now slot.writable).1 }
        simp only [hrefresh]
        split
        · obtain ⟨acc', heq, hq, hw'⟩ := ih
            { acc with
                wait_results := aset hw (Except.error ew)
                  (aset hr (Except.error er) acc.wait_results)
                ready_queue := (acc.ready_queue ++ [hr]) ++ [hw]
                timed := acc.timed - 1 - 1
                pending := acc.pending - 1 - 1
                ops := acc.ops ++ ops1 }
          exact ⟨acc', heq, by simpa using hq, by simpa using hw'⟩
        · obtain ⟨acc', heq, hq, hw'⟩ := ih
            { acc with
                kept := acc.kept ++ [(fd, slot2)]
                wait_results := aset hw (Except.error ew)
                  (aset hr (Except.error er) acc.wait_results)
                ready_queue := (acc.ready_queue ++ [hr]) ++ [hw]
                timed := acc.timed - 1 - 1
                pending := acc.pending - 1 - 1
                next_deadline := fold_deadline
                  (fold_deadline acc.next_deadline slot2.readable)
                  slot2.writable
                ops := acc.ops ++ ops1 }
          exact ⟨acc', heq, by simpa using hq, by simpa using hw'⟩

theorem expire_reg_some {now : Int} {r : wait_registration} {pr : Nat × Nat}
    (h : (expire_reg now r).2 = some pr) :
    pr = (r.handle, r.timeout_error) ∧ r.handle ≠ 0 ∧
      ∃ d, r.deadline = some d ∧ d ≤ now := by
  cases hd : r.deadline with
  | none => simp [expire_reg, hd] at h
  | some d =>
    simp only [expire_reg, hd] at h
    by_cases hc : r.handle ≠ 0 ∧ d ≤ now
    · rw [if_pos hc] at h
      simp at h
      exact ⟨h.symm, hc.1, d, rfl, hc.2⟩
    · rw [if_neg hc] at h
      simp at h

theorem expire_reg_fired {now : Int} {r : wait_registration} {d : Int}
    (hz : r.handle ≠ 0) (hd : r.deadline = some d) (hle : d ≤ now) :
    (expire_reg now r).2 = some (r.handle, r.timeout_error) := by
  simp [expire_reg, hd, hz, hle]

theorem expired_mem {now : Int} {rs : List wait_registration}
    {pr : Nat × Nat} (h : pr ∈ expiredOf now rs) :
    ∃ r ∈ rs, (expire_reg now r).2 = some pr :=
  List.mem_filterMap.mp h

theorem expired_mem_intro {now : Int} {rs : List wait_registration}
    {r : wait_registration} {pr : Nat × Nat} (hr : r ∈ rs)
    (h : (expire_reg now r).2 = some pr) : pr ∈ expiredOf now rs :=
  List.mem_filterMap.mpr ⟨r, hr, h⟩

theorem expired_fst_sublist (now : Int) (rs : List wait_registration) :
    ((expiredOf now rs).map Prod.fst).Sublist (nonzeroHandles rs) := by
  induction rs with
  | nil => simp [expiredOf, nonzeroHandles]
  | cons r rest ih =>
    cases hp : (expire_reg now r).2 with
    | some pr =>
      obtain ⟨hpr, hz, d, hd, hle⟩ := expire_reg_some hp
      have hzb : (r.handle != 0) = true := by simpa using hz
      have hl : expiredOf now (r :: rest) = pr :: expiredOf now rest := by
        simp [expiredOf, List.filterMap_cons, hp]
      have hr : nonzeroHandles (r :: rest) =
          r.handle :: nonzeroHandles rest := by
        simp [nonzeroHandles, List.filter_cons, hzb]
      rw [hl, hr, hpr]
      exact List.Sublist.cons₂ _ ih
    | none =>
      have hl : expiredOf now (r :: rest) = expiredOf now rest := by
        simp [expiredOf, List.filterMap_cons, hp]
      rw [hl]
      by_cases hzb : (r.handle != 0) = true
      · have hr : nonzeroHandles (r :: rest) =
            r.handle :: nonzeroHandles rest := by
          simp [nonzeroHandles, List.filter_cons, hzb]
        rw [hr]
        exact List.Sublist.cons _ ih
      · have hr : nonzeroHandles (r :: rest) = nonzeroHandles rest := by
          simp only [nonzeroHandles, List.filter_cons]
          rw [if_neg hzb]
        rw [hr]
        exact ih

theorem reg_unique {rs : List wait_registration}
    (hnd : (nonzeroHandles rs).Nodup) {r1 r2 : wait_registration}
    (h1 : r1 ∈ rs) (h2 : r2 ∈ rs) (hz : r1.handle ≠ 0)
    (heq : r1.handle = r2.handle) : r1 = r2 := by
  have hz2 : r2.handle ≠ 0 := heq ▸ hz
  have m1 : r1 ∈ rs.filter (fun r => r.handle != 0) :=
    List.mem_filter.mpr ⟨h1, by simpa using hz⟩
  have m2 : r2 ∈ rs.filter (fun r => r.handle != 0) :=
    List.mem_filter.mpr ⟨h2, by simpa using hz2⟩
  exact List.inj_on_of_nodup_map hnd m1 m2 heq

theorem process_scan {env : reactor_op → Except Nat Unit}
    (henv : ∀ op, env op = .ok ()) (s : LoopState) (now : Int)
    (ht : s.timed_waiter_count ≠ 0)
    (hns : ¬(s.deadline_index_dirty = false ∧
      (match s.next_deadline with
        | some nd => decide (now < nd)
        | none => false) = true)) :
    (process_expired_waiters env s now).1.ready_queue =
      s.ready_queue ++ (expiredOf now (regs s.waiters)).map Prod.fst ∧
    (process_expired_waiters env s now).1.wait_results =
      (expiredOf now (regs s.waiters)).foldl
        (fun m p => aset p.1 (Except.error p.2) m) s.wait_results := by
  unfold process_expired_waiters
  rw [if_neg ht, if_neg hns]
  obtain ⟨acc', heq, hq, hw⟩ := scan_go_spec henv now s.waiters
    ⟨[], s.wait_results, s.ready_queue, s.pending_waiter_count,
      s.timed_waiter_count, none, []⟩
  simp only [heq]
  exact ⟨by simpa using hq, by simpa using hw⟩

end epollLoop

namespace uringLoop

/-- All registrations of a waiter map, readable side first per slot, in
iteration order — the order in which the scan examines them. -/
def regs (ws : List (Int × waiter_slot)) : List wait_registration :=
  ws.flatMap (fun p => [p.2.readable, p.2.writable])

/-- The `(handle, timeout_error, token)` triples delivered at time
`now`. -/
def expiredOf (now : Int) (rs : List wait_registration) :
    List (Nat × Nat × Nat) :=
  rs.filterMap (fun r => (expire_reg now r).2)

def nonzeroHandles (rs : List wait_registration) : List Nat :=
  (rs.filter (fun r => r.handle != 0)).map wait_registration.handle

theorem expire_side_ok {env : uring_op → Except Nat Unit}
    (henv : ∀ op, env op = .ok ()) (acc : ScanAcc)
    (o : Option (Nat × Nat × Nat)) :
    ∃ acc2, expire_side env acc o = (acc2, none) ∧
      acc2.ready_queue = acc.ready_queue ++ (o.map (fun p => p.1)).toList ∧
      acc2.wait_results =
        (match o with
          | some p => aset p.1 (Except.error p.2.1) acc.wait_results
          | none => acc.wait_results) := by
  cases o with
  | none => exact ⟨acc, rfl, by simp, rfl⟩
  | some p =>
    obtain ⟨h, e, tk⟩ := p
    simp only [expire_side]
    by_cases htk : tk ≠ 0
    · rw [if_pos htk, henv]
      exact ⟨_, rfl, by simp, rfl⟩
    · rw [if_neg htk]
      exact ⟨_, rfl, by simp, rfl⟩

theorem scan_go_spec_uring {env : uring_op → Except Nat Unit}
    (henv : ∀ op, env op = .ok ()) (now : Int)
    (ws : List (Int × waiter_slot)) (acc : ScanAcc) :
    ∃ acc', scan_go env now ws acc = (acc', none, []) ∧
      acc'.ready_queue =
        acc.ready_queue ++ (expiredOf now (regs ws)).map Prod.fst ∧
      acc'.wait_results =
        (expiredOf now (regs ws)).foldl
          (fun m p => aset p.1 (Except.error p.2.1) m) acc.wait_results := by
  induction ws generalizing acc with
  | nil => exact ⟨acc, rfl, by simp [regs, expiredOf], by simp [regs, expiredOf]⟩
  | cons p rest ih =>
    obtain ⟨fd, slot⟩ := p
    have hregs : regs ((fd, slot) :: rest) =
        slot.readable :: slot.writable :: regs rest := by
      simp [regs]
    rw [hregs]
    simp only [scan_go]
    obtain ⟨accR, heqR, hqR, hwR⟩ :=
      expire_side_ok henv acc (expire_reg now slot.readable).2
    simp only [heqR]
    obtain ⟨accW, heqW, hqW, hwW⟩ :=
      expire_side_ok henv accR (expire_reg now slot.writable).2
    simp only [heqW]
    have hexp : expiredOf now (slot.readable :: slot.writable :: regs rest) =
        ((expire_reg now slot.readable).2.map id).toList ++
          (((expire_reg now slot.writable).2.map id).toList ++
            expiredOf now (regs rest)) := by
      cases her : (expire_reg now slot.readable).2 <;>
        cases hew : (expire_reg now slot.writable).2 <;>
          simp [expiredOf, List.filterMap_cons, her, hew]
    rw [hexp]
    have hready : ∀ q : List Nat,
        q = accW.ready_queue ++ (expiredOf now (regs rest)).map Prod.fst →
        q = acc.ready_queue ++
          ((((expire_reg now slot.readable).2.map id).toList ++
            (((expire_reg now slot.writable).2.map id).toList ++
              expiredOf now (regs rest)))).map Prod.fst := by
      intro q hq
      rw [hq, hqW, hqR]
      cases her : (expire_reg now slot.readable).2 <;>
        cases hew : (expire_reg now slot.writable).2 <;> simp
    have hres : ∀ m : List (Nat × Except Nat Unit),
        m = (expiredOf now (regs rest)).foldl
          (fun m p => aset p.1 (Except.error p.2.1) m) accW.wait_results →
        m = ((((expire_reg now slot.readable).2.map id).toList ++
            (((expire_reg now slot.writable).2.map id).toList ++
              expiredOf now (regs rest)))).foldl
            (fun m p => aset p.1 (Except.error p.2.1) m) acc.wait_results := by
      intro m hw
      rw [hw, hwW, hwR]
      cases her : (expire_reg now slot.readable).2 <;>
        cases hew : (expire_reg now slot.writable).2 <;> simp
    split
    · obtain ⟨acc', heq, hq, hw⟩ := ih accW
      exact ⟨acc', heq, hready _ hq, hres _ hw⟩
    · obtain ⟨acc', heq, hq, hw⟩ := ih
        { accW with
            kept := accW.kept ++ [(fd, { slot with
              readable := (expire_reg now slot.readable).1,
              writable := (expire_reg now slot.writable).1 })]
            next_deadline := fold_deadline
              (fold_deadline accW.next_deadline
                (expire_reg now slot.readable).1)
              (expire_reg now slot.writable).1 }
      exact ⟨acc', heq, hready _ (by simpa using hq),
        hres _ (by simpa using hw)⟩

theorem expire_reg_some_uring {now : Int} {r : wait_registration}
    {pr : Nat × Nat × Nat} (h : (expire_reg now r).2 = some pr) :
    pr = (r.handle, r.timeout_error, r.token) ∧ r.handle ≠ 0 ∧
      ∃ d, r.deadline = some d ∧ d ≤ now := by
  cases hd : r.deadline with
  | none => simp [expire_reg, hd] at h
  | some d =>
    simp only [expire_reg, hd] at h
    by_cases hc : r.handle ≠ 0 ∧ d ≤ now
    · rw [if_pos hc] at h
      simp at h
      exact ⟨h.symm, hc.1, d, rfl, hc.2⟩
    · rw [if_neg hc] at h
      simp at h

theorem expire_reg_fired_uring {now : Int} {r : wait_registration} {d : Int}
    (hz : r.handle ≠ 0) (hd : r.deadline = some d) (hle : d ≤ now) :
    (expire_reg now r).2 = some (r.handle, r.timeout_error, r.token) := by
  simp [expire_reg, hd, hz, hle]

theorem expired_mem_uring {now : Int} {rs : List wait_registration}
    {pr : Nat × Nat × Nat} (h : pr ∈ expiredOf now rs) :
    ∃ r ∈ rs, (expire_reg now r).2 = some pr :=
  List.mem_filterMap.mp h

theorem expired_mem_intro_uring {now : Int} {rs : List wait_registration}
    {r : wait_registration} {pr : Nat × Nat × Nat} (hr : r ∈ rs)
    (h : (expire_reg now r).2 = some pr) : pr ∈ expiredOf now rs :=
  List.mem_filterMap.mpr ⟨r, hr, h⟩

theorem expired_fst_sublist_uring (now : Int) (rs : List wait_registration) :
    ((expiredOf now rs).map Prod.fst).Sublist (nonzeroHandles rs) := by
  induction rs with
  | nil => simp [expiredOf, nonzeroHandles]
  | cons r rest ih =>
    cases hp : (expire_reg now r).2 with
    | some pr =>
      obtain ⟨hpr, hz, d, hd, hle⟩ := expire_reg_some_uring hp
      have hzb : (r.handle != 0) = true := by simpa using hz
      have hl : expiredOf now (r :: rest) = pr :: expiredOf now rest := by
        simp [expiredOf, List.filterMap_cons, hp]
      have hr : nonzeroHandles (r :: rest) =
          r.handle :: nonzeroHandles rest := by
        simp [nonzeroHandles, List.filter_cons, hzb]
      rw [hl, hr, hpr]
      exact List.Sublist.cons₂ _ ih
    | none =>
      have hl : expiredOf now (r :: rest) = expiredOf now rest := by
        simp [expiredOf, List.filterMap_cons, hp]
      rw [hl]
      by_cases hzb : (r.handle != 0) = true
      · have hr : nonzeroHandles (r :: rest) =
            r.handle :: nonzeroHandles rest := by
          simp [nonzeroHandles, List.filter_cons, hzb]
        rw [hr]
        exact List.Sublist.cons _ ih
      · have hr : nonzeroHandles (r :: rest) = nonzeroHandles rest := by
          simp only [nonzeroHandles, List.filter_cons]
          rw [if_neg hzb]
        rw [hr]
        exact ih

theorem reg_unique_uring {rs : List wait_registration}
    (hnd : (nonzeroHandles rs).Nodup) {r1 r2 : wait_registration}
    (h1 : r1 ∈ rs) (h2 : r2 ∈ rs) (hz : r1.handle ≠ 0)
    (heq : r1.handle = r2.handle) : r1 = r2 := by
  have hz2 : r2.handle ≠ 0 := heq ▸ hz
  have m1 : r1 ∈ rs.filter (fun r => r.handle != 0) :=
    List.mem_filter.mpr ⟨h1, by simpa using hz⟩
  have m2 : r2 ∈ rs.filter (fun r => r.handle != 0) :=
    List.mem_filter.mpr ⟨h2, by simpa using hz2⟩
  exact List.inj_on_of_nodup_map hnd m1 m2 heq

theorem process_scan_uring {env : uring_op → Except Nat Unit}
    (henv : ∀ op, env op = .ok ()) (s : LoopState) (now : Int)
    (ht : s.timed_waiter_count ≠ 0)
    (hns : ¬(s.deadline_index_dirty = false ∧
      (match s.next_deadline with
        | some nd => decide (now < nd)
        | none => false) = true)) :
    (process_expired_waiters env s now).1.ready_queue =
      s.ready_queue ++ (expiredOf now (regs s.waiters)).map Prod.fst ∧
    (process_expired_waiters env s now).1.wait_results =
      (expiredOf now (regs s.waiters)).foldl
        (fun m p => aset p.1 (Except.error p.2.1) m) s.wait_results := by
  unfold process_expired_waiters
  rw [if_neg ht, if_neg hns]
  obtain ⟨acc', heq, hq, hw⟩ := scan_go_spec_uring henv now s.waiters
    ⟨[], s.inflight_polls, s.wait_results, s.ready_queue,
      s.pending_waiter_count, s.timed_waiter_count, none, []⟩
  simp only [heq]
  exact ⟨by simpa using hq, by simpa using hw⟩

end uringLoop

namespace epollLoop

/-- Deadline ordering within one expiry scan: under successful reactor
interaction and unique armed handles, if the registration with the later
deadline is delivered, the one with the earlier deadline (still pending)
is delivered in the same scan, and each receives exactly its own
configured `timeout_error`. -/
theorem deadline_order {env : reactor_op → Except Nat Unit}
    (s : LoopState) (now : Int) (r1 r2 : wait_registration) (d1 d2 : Int)
    (henv : ∀ op, env op = .ok ())
    (hnd : (nonzeroHandles (regs s.waiters)).Nodup)
    (h1mem : r1 ∈ regs s.waiters) (h1z : r1.handle ≠ 0)
    (h1dl : r1.deadline = some d1)
    (hr2mem : r2 ∈ regs s.waiters) (h2z : r2.handle ≠ 0)
    (h2dl : r2.deadline = some d2)
    (hlt : d1 < d2)
    (h2notin : r2.handle ∉ s.ready_queue)
    (ht : s.timed_waiter_count ≠ 0)
    (hns : ¬(s.deadline_index_dirty = false ∧
      (match s.next_deadline with
        | some nd => decide (now < nd)
        | none => false) = true))
    (h2in : r2.handle ∈
      (process_expired_waiters env s now).1.ready_queue) :
    r1.handle ∈ (process_expired_waiters env s now).1.ready_queue ∧
    alookup r1.handle
        (process_expired_waiters env s now).1.wait_results =
      some (Except.error r1.timeout_error) ∧
    alookup r2.handle
        (process_expired_waiters env s now).1.wait_results =
      some (Except.error r2.timeout_error) := by
  obtain ⟨hq, hw⟩ := process_scan henv s now ht hns
  have hndp : ((expiredOf now (regs s.waiters)).map Prod.fst).Nodup :=
    List.Nodup.sublist (expired_fst_sublist now (regs s.waiters)) hnd
  rw [hq] at h2in
  rcases List.mem_append.mp h2in with hcontra | h2in'
  · exact absurd hcontra h2notin
  · obtain ⟨pr, hprmem, hprfst⟩ := List.mem_map.mp h2in'
    obtain ⟨r', hr'mem, hr'exp⟩ := expired_mem hprmem
    obtain ⟨hpr_eq, hz', d', hd', hle'⟩ := expire_reg_some hr'exp
    have hhandle : r'.handle = r2.handle := by
      rw [hpr_eq] at hprfst
      simpa using hprfst
    have hr'r2 : r' = r2 := reg_unique hnd hr'mem hr2mem hz' hhandle
    rw [hr'r2] at hpr_eq hd'
    rw [h2dl] at hd'
    injection hd' with hd'
    subst hd'
    have hd1now : d1 ≤ now := by omega
    have hp1mem : (r1.handle, r1.timeout_error) ∈
        expiredOf now (regs s.waiters) :=
      expired_mem_intro h1mem (expire_reg_fired h1z h1dl hd1now)
    have hp2mem : (r2.handle, r2.timeout_error) ∈
        expiredOf now (regs s.waiters) := by
      rw [hpr_eq] at hprmem
      exact hprmem
    refine ⟨?_, ?_, ?_⟩
    · rw [hq]
      exact List.mem_append_right _
        (List.mem_map.mpr ⟨(r1.handle, r1.timeout_error), hp1mem, rfl⟩)
    · rw [hw]
      exact alookup_foldl_aset_mem hp1mem hndp s.wait_results Except.error
    · rw [hw]
      exact alookup_foldl_aset_mem hp2mem hndp s.wait_results Except.error

end epollLoop

namespace uringLoop

/-- Deadline ordering within one expiry scan, uring backend (see the
epoll version for the reading). -/
theorem deadline_order_uring {env : uring_op → Except Nat Unit}
    (s : LoopState) (now : Int) (r1 r2 : wait_registration) (d1 d2 : Int)
    (henv : ∀ op, env op = .ok ())
    (hnd : (nonzeroHandles (regs s.waiters)).Nodup)
    (h1mem : r1 ∈ regs s.waiters) (h1z : r1.handle ≠ 0)
    (h1dl : r1.deadline = some d1)
    (hr2mem : r2 ∈ regs s.waiters) (h2z : r2.handle ≠ 0)
    (h2dl : r2.deadline = some d2)
    (hlt : d1 < d2)
    (h2notin : r2.handle ∉ s.ready_queue)
    (ht : s.timed_waiter_count ≠ 0)
    (hns : ¬(s.deadline_index_dirty = false ∧
      (match s.next_deadline with
        | some nd => decide (now < nd)
        | none => false) = true))
    (h2in : r2.handle ∈
      (process_expired_waiters env s now).1.ready_queue) :
    r1.handle ∈ (process_expired_waiters env s now).1.ready_queue ∧
    alookup r1.handle
        (process_expired_waiters env s now).1.wait_results =
      some (Except.error r1.timeout_error) ∧
    alookup r2.handle
        (process_expired_waiters env s now).1.wait_results =
      some (Except.error r2.timeout_error) := by
  obtain ⟨hq, hw⟩ := process_scan_uring henv s now ht hns
  have hndp : ((expiredOf now (regs s.waiters)).map Prod.fst).Nodup :=
    List.Nodup.sublist (expired_fst_sublist_uring now (regs s.waiters)) hnd
  rw [hq] at h2in
  rcases List.mem_append.mp h2in with hcontra | h2in'
  · exact absurd hcontra h2notin
  · obtain ⟨pr, hprmem, hprfst⟩ := List.mem_map.mp h2in'
    obtain ⟨r', hr'mem, hr'exp⟩ := expired_mem_uring hprmem
    obtain ⟨hpr_eq, hz', d', hd', hle'⟩ := expire_reg_some_uring hr'exp
    have hhandle : r'.handle = r2.handle := by
      rw [hpr_eq] at hprfst
      simpa using hprfst
    have hr'r2 : r' = r2 := reg_unique_uring hnd hr'mem hr2mem hz' hhandle
    rw [hr'r2] at hpr_eq hd'
    rw [h2dl] at hd'
    injection hd' with hd'
    subst hd'
    have hd1now : d1 ≤ now := by omega
    have hp1mem : (r1.handle, r1.timeout_error, r1.token) ∈
        expiredOf now (regs s.waiters) :=
      expired_mem_intro_uring h1mem (expire_reg_fired_uring h1z h1dl hd1now)
    have hp2mem : (r2.handle, r2.timeout_error, r2.token) ∈
        expiredOf now (regs s.waiters) := by
      rw [hpr_eq] at hprmem
      exact hprmem
    refine ⟨?_, ?_, ?_⟩
    · rw [hq]
      exact List.mem_append_right _
        (List.mem_map.mpr ⟨(r1.handle, r1.timeout_error, r1.token),
          hp1mem, rfl⟩)
    · rw [hw]
      exact alookup_foldl_aset_mem hp1mem hndp s.wait_results
        (fun q => Except.error q.1)
    · rw [hw]
      exact alookup_foldl_aset_mem hp2mem hndp s.wait_results
        (fun q => Except.error q.1)

end uringLoop

/-- C7: on both backends, when two timed waiters with distinct deadlines
are armed (with the usual one-outstanding-wait-per-frame handle
uniqueness) and the reactor interactions succeed, a `process_expired_waiters`
scan never delivers the later-deadline registration's timeout while the
earlier-deadline one is still armed and undelivered: whenever the later
one's frame is scheduled by the scan, the earlier one's frame is
scheduled by that same scan, and each frame's recorded wait result is
`error` of exactly the `timeout_error` configured for that registration
at arming time. -/
theorem C7_earlier_deadline_fires_first :
    (∀ (env : epollLoop.reactor_op → Except Nat Unit)
        (s : epollLoop.LoopState) (now : Int)
        (r1 r2 : epollLoop.wait_registration) (d1 d2 : Int),
      (∀ op, env op = .ok ()) →
      (epollLoop.nonzeroHandles (epollLoop.regs s.waiters)).Nodup →
      r1 ∈ epollLoop.regs s.waiters → r1.handle ≠ 0 →
      r1.deadline = some d1 →
      r2 ∈ epollLoop.regs s.waiters → r2.handle ≠ 0 →
      r2.deadline = some d2 →
      d1 < d2 →
      r2.handle ∉ s.ready_queue →
      s.timed_waiter_count ≠ 0 →
      ¬(s.deadline_index_dirty = false ∧
        (match s.next_deadline with
          | some nd => decide (now < nd)
          | none => false) = true) →
      r2.handle ∈
        (epollLoop.process_expired_waiters env s now).1.ready_queue →
      (r1.handle ∈
          (epollLoop.process_expired_waiters env s now).1.ready_queue ∧
        alookup r1.handle
            (epollLoop.process_expired_waiters env s now).1.wait_results =
          some (Except.error r1.timeout_error) ∧
        alookup r2.handle
            (epollLoop.process_expired_waiters env s now).1.wait_results =
          some (Except.error r2.timeout_error))) ∧
    (∀ (env : uringLoop.uring_op → Except Nat Unit)
        (s : uringLoop.LoopState) (now : Int)
        (r1 r2 : uringLoop.wait_registration) (d1 d2 : Int),
      (∀ op, env op = .ok ()) →
      (uringLoop.nonzeroHandles (uringLoop.regs s.waiters)).Nodup →
      r1 ∈ uringLoop.regs s.waiters → r1.handle ≠ 0 →
      r1.deadline = some d1 →
      r2 ∈ uringLoop.regs s.waiters → r2.handle ≠ 0 →
      r2.deadline = some d2 →
      d1 < d2 →
      r2.handle ∉ s.ready_queue →
      s.timed_waiter_count ≠ 0 →
      ¬(s.deadline_index_dirty = false ∧
        (match s.next_deadline with
          | some nd => decide (now < nd)
          | none => false) = true) →
      r2.handle ∈
        (uringLoop.process_expired_waiters env s now).1.ready_queue →
      (r1.handle ∈
          (uringLoop.process_expired_waiters env s now).1.ready_queue ∧
        alookup r1.handle
            (uringLoop.process_expired_waiters env s now).1.wait_results =
          some (Except.error r1.timeout_error) ∧
        alookup r2.handle
            (uringLoop.process_expired_waiters env s now).1.wait_results =
          some (Except.error r2.timeout_error))) :=
  ⟨fun env s now r1 r2 d1 d2 henv hnd h1m h1z h1d h2m h2z h2d hlt hni ht
      hns h2in =>
    epollLoop.deadline_order s now r1 r2 d1 d2 henv hnd h1m h1z h1d h2m
      h2z h2d hlt hni ht hns h2in,
    fun env s now r1 r2 d1 d2 henv hnd h1m h1z h1d h2m h2z h2d hlt hni ht
      hns h2in =>
    uringLoop.deadline_order_uring s now r1 r2 d1 d2 henv hnd h1m h1z h1d h2m
      h2z h2d hlt hni ht hns h2in⟩

/-- A loop with one fd whose readable side is armed with deadline 10 and
error 110, and writable side with deadline 20 and error 111; at time 30
both have fired. -/
def epollScanDemo : epollLoop.LoopState :=
  ⟨true, [(5, ⟨⟨1, some 10, 110⟩, ⟨2, some 20, 111⟩, 0⟩)], [], [], 2, 2,
    none, true, 0, none, false⟩

def uringScanDemo : uringLoop.LoopState :=
  ⟨true, [(5, ⟨⟨1, some 10, 110, 7⟩, ⟨2, some 20, 111, 8⟩⟩)], [], [], [],
    2, 2, none, true, 0, 9, none, false⟩

theorem C7_witness :
    ((1 : Nat) ∈
        (epollLoop.process_expired_waiters (fun _ => .ok ()) epollScanDemo
          30).1.ready_queue ∧
      alookup 1 (epollLoop.process_expired_waiters (fun _ => .ok ())
          epollScanDemo 30).1.wait_results = some (Except.error 110) ∧
      alookup 2 (epollLoop.process_expired_waiters (fun _ => .ok ())
          epollScanDemo 30).1.wait_results = some (Except.error 111)) ∧
    ((1 : Nat) ∈
        (uringLoop.process_expired_waiters (fun _ => .ok ()) uringScanDemo
          30).1.ready_queue ∧
      alookup 1 (uringLoop.process_expired_waiters (fun _ => .ok ())
          uringScanDemo 30).1.wait_results = some (Except.error 110) ∧
      alookup 2 (uringLoop.process_expired_waiters (fun _ => .ok ())
          uringScanDemo 30).1.wait_results = some (Except.error 111)) :=
  ⟨C7_earlier_deadline_fires_first.1 (fun _ => .ok ()) epollScanDemo 30
      ⟨1, some 10, 110⟩ ⟨2, some 20, 111⟩ 10 20 (fun _ => rfl) (by decide)
      (by decide) (by decide) rfl (by decide) (by decide) rfl (by decide)
      (by decide) (by decide) (by decide) (by decide),
    C7_earlier_deadline_fires_first.2 (fun _ => .ok ()) uringScanDemo 30
      ⟨1, some 10, 110, 7⟩ ⟨2, some 20, 111, 8⟩ 10 20 (fun _ => rfl)
      (by decide) (by decide) (by decide) rfl (by decide) (by decide) rfl
      (by decide) (by decide) (by decide) (by decide) (by decide)⟩

/-! ## `async_sleep` early returns (uring_event_loop.cpp lines 805-816)

`async_sleep` first checks `token.stop_requested()`, then the duration,
and only afterwards fetches and arms the timer descriptor. -/

/-- The entry section of `async_sleep` (uring_event_loop.cpp lines
805-811) up to the first timer interaction: `some r` means the coroutine
returns `r` before touching any timer, `none` means it proceeds to fetch
and arm the timerfd.  `cancelled` is `token.stop_requested()`, `duration`
is in milliseconds. -/
def async_sleep_entry (cancelled : Bool) (duration : Int) :
    Option (Except Nat Unit) :=
  if cancelled then some (.error ECANCELED)
  else if duration ≤ 0 then some (.ok ())
  else none

/-- C5 (amended): the cancellation check precedes the duration check.
`async_sleep` returns `ECANCELED` immediately (no timer armed) whenever
the token is already stop-requested — for any duration, non-positive
included — and returns `ok` immediately (no timer armed) for a
non-positive duration when the token is not stop-requested; in all other
cases it proceeds to arm a timer.  (The unamended claim promised `ok` for
*every* non-positive duration; with a pre-cancelled token the code
returns `ECANCELED` instead — see the counterexample.) -/
theorem C5_async_sleep_early_returns :
    (∀ d : Int, async_sleep_entry true d = some (.error ECANCELED)) ∧
    (∀ d : Int, d ≤ 0 → async_sleep_entry false d = some (.ok ())) ∧
    (∀ d : Int, 0 < d → async_sleep_entry false d = none) := by
  refine ⟨fun d => rfl, fun d hd => ?_, fun d hd => ?_⟩
  · unfold async_sleep_entry
    rw [if_neg (by simp), if_pos hd]
  · unfold async_sleep_entry
    rw [if_neg (by simp), if_neg (by omega)]

theorem C5_witness :
    async_sleep_entry true 5 = some (.error ECANCELED) ∧
    async_sleep_entry false (-3) = some (.ok ()) ∧
    async_sleep_entry false 5 = none :=
  ⟨C5_async_sleep_early_returns.1 5,
    C5_async_sleep_early_returns.2.1 (-3) (by decide),
    C5_async_sleep_early_returns.2.2 5 (by decide)⟩

/-- C5 counterexample: a call with non-positive duration whose token is
already stop-requested returns `ECANCELED`, not `ok`, because the
cancellation check comes first. -/
theorem C5_counterexample :
    (0 : Int) ≤ 0 ∧
    async_sleep_entry true 0 = some (.error ECANCELED) ∧
    async_sleep_entry true 0 ≠ some (.ok ()) := by
  refine ⟨le_refl 0, rfl, ?_⟩
  intro h
  simp [async_sleep_entry] at h

/-! ## `tcp_stream::read_some` / `write_some`
(`src/src/nonblocking/tcp.cpp` lines 101-132)

The single `recv`/`send` system call a `read_some` / `write_some` call
may perform is an oracle argument (`Except` errno byte-count); the `Bool`
in the result records whether that system call was performed. -/

namespace tcp_stream

/-- `tcp_stream::read_some` (tcp.cpp lines 101-115): `EBADF` on an
invalid descriptor, `0` immediately on an empty buffer (no `recv`),
otherwise the `recv` verdict. -/
def read_some (valid : Bool) (buffer : List Nat)
    (recv : Except Nat Nat) : Except Nat Nat × Bool :=
  if valid = false then (.error EBADF, false)
  else if buffer = [] then (.ok 0, false)
  else
    match recv with
    | .error e => (.error e, true)
    | .ok count => (.ok count, true)

/-- `tcp_stream::write_some` (tcp.cpp lines 117-132): `EBADF` on an
invalid descriptor, `0` immediately on an empty buffer (no `send`),
otherwise the `send` verdict. -/
def write_some (valid : Bool) (buffer : List Nat)
    (send : Except Nat Nat) : Except Nat Nat × Bool :=
  if valid = false then (.error EBADF, false)
  else if buffer = [] then (.ok 0, false)
  else
    match send with
    | .error e => (.error e, true)
    | .ok count => (.ok count, true)

end tcp_stream

/-- C10: on a valid stream, `read_some` and `write_some` with an empty
buffer return 0 immediately with no socket operation; with a non-empty
buffer the result is exactly the `recv`/`send` verdict and a socket
operation is performed — so a zero return reflects the socket (peer
closure for reads, zero-byte transfer for writes) only when the buffer is
non-empty. -/
theorem C10_empty_buffer_short_circuit :
    (∀ recv : Except Nat Nat,
      tcp_stream.read_some true [] recv = (.ok 0, false)) ∧
    (∀ send : Except Nat Nat,
      tcp_stream.write_some true [] send = (.ok 0, false)) ∧
    (∀ (buffer : List Nat) (recv : Except Nat Nat), buffer ≠ [] →
      tcp_stream.read_some true buffer recv = (recv, true)) ∧
    (∀ (buffer : List Nat) (send : Except Nat Nat), buffer ≠ [] →
      tcp_stream.write_some true buffer send = (send, true)) := by
  refine ⟨fun recv => rfl, fun send => rfl, fun buffer recv hb => ?_,
    fun buffer send hb => ?_⟩
  · unfold tcp_stream.read_some
    rw [if_neg (by simp), if_neg hb]
    cases recv <;> rfl
  · unfold tcp_stream.write_some
    rw [if_neg (by simp), if_neg hb]
    cases send <;> rfl

theorem C10_witness :
    tcp_stream.read_some true [] (.ok 5) = (.ok 0, false) ∧
    tcp_stream.write_some true [] (.error 11) = (.ok 0, false) ∧
    tcp_stream.read_some true [1] (.ok 0) = (.ok 0, true) ∧
    tcp_stream.write_some true [1] (.ok 0) = (.ok 0, true) :=
  ⟨C10_empty_buffer_short_circuit.1 (.ok 5),
    C10_empty_buffer_short_circuit.2.1 (.error 11),
    C10_empty_buffer_short_circuit.2.2.1 [1] (.ok 0) (by decide),
    C10_empty_buffer_short_circuit.2.2.2 [1] (.ok 0) (by decide)⟩

end LibSimpleNet
